import Mathlib

/-! Verification of the PNML Petri-net parser and reachability explorer
(`pnml_parser.py`).

The Python module is shallowly embedded:
* dictionaries (`places`, `transitions`, `arcs`) become association lists
  `List (String × _)` kept in insertion order;
* `frozenset` markings become `Finset String`;
* exceptions become an `Except ParseError` pipeline mirroring the
  sequence of `raise` sites in `parsePNML`;
* the BFS/DFS worklist loop of `compute_reachable_markings` becomes the
  well-founded recursion `explore`, whose measure mirrors the argument
  that the visited set is bounded by the powerset of the finite universe
  of place ids.
-/

set_option maxHeartbeats 1000000

/-- The `Place` dataclass of the source (id, optional name, initial marking,
incident arc-id lists). -/
structure Place where
  id : String
  name : Option String := none
  initial_marking : Int := 0
  incoming : List String := []
  outgoing : List String := []
deriving DecidableEq

/-- The `Transition` dataclass of the source. -/
structure Transition where
  id : String
  name : Option String := none
  incoming : List String := []
  outgoing : List String := []
deriving DecidableEq

/-- The `Arc` dataclass of the source. -/
structure Arc where
  id : String
  source : String
  target : String
  weight : Int := 1
deriving DecidableEq

/-- The `PetriNet` dataclass of the source; the three Python dicts are
association lists in insertion order. -/
structure PetriNet where
  id : Option String
  places : List (String × Place)
  transitions : List (String × Transition)
  arcs : List (String × Arc)
deriving DecidableEq

/-- Dictionary lookup `d[k]` (first matching key). -/
def lookupA {α : Type} (l : List (String × α)) (k : String) : Option α :=
  (l.find? (fun q => q.1 == k)).map Prod.snd

/-- Dictionary membership `k in d`. -/
def isKey {α : Type} (l : List (String × α)) (k : String) : Bool :=
  l.any (fun q => q.1 == k)

/-- In-place mutation `d[k] = f d[k]` of a dict entry. -/
def updateVal {α : Type} (l : List (String × α)) (k : String) (f : α → α) :
    List (String × α) :=
  l.map (fun q => if q.1 == k then (q.1, f q.2) else q)

/-- Python `str.strip()`: drop leading and trailing whitespace. -/
def trimChars (l : List Char) : List Char :=
  ((l.dropWhile Char.isWhitespace).reverse.dropWhile Char.isWhitespace).reverse

/-- Numeric value of a digit run. -/
def digitsVal (l : List Char) : Nat :=
  l.foldl (fun acc c => acc * 10 + (c.toNat - 48)) 0

/-- Python `int(·)` on already-stripped text: an optional sign followed
by at least one decimal digit; anything else raises `ValueError`. -/
def toIntStr : List Char → Option Int
  | [] => none
  | '-' :: rest =>
    if rest.length ≠ 0 ∧ rest.all Char.isDigit then some (-(digitsVal rest : Int))
    else none
  | '+' :: rest =>
    if rest.length ≠ 0 ∧ rest.all Char.isDigit then some ((digitsVal rest : Int))
    else none
  | l =>
    if l.all Char.isDigit then some ((digitsVal l : Int)) else none

/-- Embeds `parseInteger` (source lines 67-73): `int(s.strip())` with a
permissive default on `None` or unparsable text. -/
def parseInteger (s : Option String) (dflt : Int) : Int :=
  match s with
  | none => dflt
  | some s =>
    match toIntStr (trimChars s.data) with
    | some n => n
    | none => dflt

/-- Strict lexicographic comparison by code point, on the character
lists underlying two strings: Python's `<` on `str`. -/
def strLt : List Char → List Char → Bool
  | [], [] => false
  | [], _ :: _ => true
  | _ :: _, [] => false
  | a :: as, b :: bs =>
    if a.toNat < b.toNat then true
    else if b.toNat < a.toNat then false
    else strLt as bs

/-- Python's `<=` on `str` (total order used by `sorted`). -/
def strLe (a b : String) : Bool := ! strLt b.data a.data

/-- The content `parsePNML` reads from one `<place>` element: the `id`
attribute and the text payloads located by `parseText`. -/
structure RawPlace where
  id : Option String
  name : Option String := none
  im_text : Option String := none
deriving DecidableEq

/-- The content read from one `<transition>` element. -/
structure RawTransition where
  id : Option String
  name : Option String := none
deriving DecidableEq

/-- The content read from one `<arc>` element. -/
structure RawArc where
  id : Option String
  source : Option String
  target : Option String
  weight_text : Option String := none
deriving DecidableEq

/-- The abstract parsed document handed to `parsePNML` (the XML layer is
the out-of-scope boundary collaborator). -/
structure RawNet where
  id : Option String := none
  places : List RawPlace
  transitions : List RawTransition
  arcs : List RawArc
deriving DecidableEq

/-- One constructor per `raise Error(...)` site of `parsePNML`, carrying
the data interpolated into the Python message. -/
inductive ParseError where
  | missingPlaceId : ParseError
  | duplicatePlaceId : String → ParseError
  | missingTransitionId : ParseError
  | duplicateTransitionId : String → ParseError
  | missingArcId : ParseError
  | duplicateArcId : String → ParseError
  | missingEndpoint : String → ParseError
  | nonPositiveWeight : String → Int → ParseError
  | unknownSource : String → String → ParseError
  | unknownTarget : String → String → ParseError
  | isolatedNodes : List (String × String) → ParseError
  | nonBinaryMarkings : List (String × Int) → ParseError
  | nonUnitWeights : List String → ParseError
deriving DecidableEq

instance {ε α : Type} [DecidableEq ε] [DecidableEq α] : DecidableEq (Except ε α) :=
  fun a b =>
  match a, b with
  | .ok x, .ok y =>
    if h : x = y then .isTrue (congrArg Except.ok h)
    else .isFalse (fun hc => h (Except.ok.inj hc))
  | .error x, .error y =>
    if h : x = y then .isTrue (congrArg Except.error h)
    else .isFalse (fun hc => h (Except.error.inj hc))
  | .ok _, .error _ => .isFalse (fun hc => Except.noConfusion hc)
  | .error _, .ok _ => .isFalse (fun hc => Except.noConfusion hc)

/-- Does the outcome carry one of the duplicate-id errors? -/
def isDupIdError : Except ParseError PetriNet → Bool
  | .error (.duplicatePlaceId _) => true
  | .error (.duplicateTransitionId _) => true
  | .error (.duplicateArcId _) => true
  | _ => false

/-- The `<place>` collection loop (source lines 101-110). -/
def collectPlaces : List RawPlace → List (String × Place) →
    Except ParseError (List (String × Place))
  | [], acc => .ok acc
  | rp :: rest, acc =>
    match rp.id with
    | none => .error .missingPlaceId
    | some pid =>
      if isKey acc pid then .error (.duplicatePlaceId pid)
      else collectPlaces rest (acc ++ [(pid,
        { id := pid, name := rp.name,
          initial_marking := parseInteger rp.im_text 0 })])

/-- The `<transition>` collection loop (source lines 113-120); note it
checks duplicates only against previously collected transitions. -/
def collectTransitions : List RawTransition → List (String × Transition) →
    Except ParseError (List (String × Transition))
  | [], acc => .ok acc
  | rt :: rest, acc =>
    match rt.id with
    | none => .error .missingTransitionId
    | some tid =>
      if isKey acc tid then .error (.duplicateTransitionId tid)
      else collectTransitions rest (acc ++ [(tid, { id := tid, name := rt.name })])

/-- The `<arc>` collection loop (source lines 123-138), including the
non-positive-weight rejection. -/
def collectArcs : List RawArc → List (String × Arc) →
    Except ParseError (List (String × Arc))
  | [], acc => .ok acc
  | ra :: rest, acc =>
    match ra.id with
    | none => .error .missingArcId
    | some aid =>
      if isKey acc aid then .error (.duplicateArcId aid)
      else
        match ra.source, ra.target with
        | some s, some t =>
          let weight := parseInteger ra.weight_text 1
          if weight ≤ 0 then .error (.nonPositiveWeight aid weight)
          else collectArcs rest
            (acc ++ [(aid, { id := aid, source := s, target := t, weight := weight })])
        | _, _ => .error (.missingEndpoint aid)

/-- Endpoint resolution and incidence registration for one arc (source
lines 144-157): places take priority over transitions for a shared id. -/
def attachOne (places : List (String × Place)) (transitions : List (String × Transition))
    (aid : String) (arc : Arc) :
    Except ParseError (List (String × Place) × List (String × Transition)) :=
  if ¬ (isKey places arc.source || isKey transitions arc.source) then
    .error (.unknownSource aid arc.source)
  else if ¬ (isKey places arc.target || isKey transitions arc.target) then
    .error (.unknownTarget aid arc.target)
  else
    let ps1 := if isKey places arc.source then
        updateVal places arc.source (fun p => { p with outgoing := p.outgoing ++ [aid] })
      else places
    let ts1 := if isKey places arc.source then transitions
      else updateVal transitions arc.source
        (fun t => { t with outgoing := t.outgoing ++ [aid] })
    let ps2 := if isKey places arc.target then
        updateVal ps1 arc.target (fun p => { p with incoming := p.incoming ++ [aid] })
      else ps1
    let ts2 := if isKey places arc.target then ts1
      else updateVal ts1 arc.target
        (fun t => { t with incoming := t.incoming ++ [aid] })
    .ok (ps2, ts2)

/-- The arc-resolution loop over all arcs in insertion order. -/
def attachArcs (places : List (String × Place)) (transitions : List (String × Transition)) :
    List (String × Arc) →
    Except ParseError (List (String × Place) × List (String × Transition))
  | [] => .ok (places, transitions)
  | (aid, arc) :: rest =>
    match attachOne places transitions aid arc with
    | .error e => .error e
    | .ok (ps, ts) => attachArcs ps ts rest

/-- The `isolated_nodes` list (source lines 160-166): places first, then
transitions, each tagged with its kind. -/
def isolatedOf (places : List (String × Place)) (transitions : List (String × Transition)) :
    List (String × String) :=
  (places.filterMap fun q =>
    if q.2.incoming = [] ∧ q.2.outgoing = [] then some ("place", q.1) else none)
  ++ (transitions.filterMap fun q =>
    if q.2.incoming = [] ∧ q.2.outgoing = [] then some ("transition", q.1) else none)

/-- The isolated-node check (source lines 167-169). -/
def checkIsolated (places : List (String × Place))
    (transitions : List (String × Transition)) : Except ParseError Unit :=
  if isolatedOf places transitions = [] then .ok ()
  else .error (.isolatedNodes (isolatedOf places transitions))

/-- The `bad_markings` list (source line 174). -/
def badMarkings (places : List (String × Place)) : List (String × Int) :=
  places.filterMap fun q =>
    if q.2.initial_marking ≠ 0 ∧ q.2.initial_marking ≠ 1 then
      some (q.1, q.2.initial_marking)
    else none

/-- The `heavy_arcs` list (source line 181). -/
def heavyArcs (arcs : List (String × Arc)) : List String :=
  arcs.filterMap fun q => if q.2.weight ≠ 1 then some q.1 else none

/-- The 1-safe validation block (source lines 172-185): markings checked
first; the weight check runs only when no bad marking exists. -/
def check1safe (require_1safe : Bool) (places : List (String × Place))
    (arcs : List (String × Arc)) : Except ParseError Unit :=
  if require_1safe then
    if badMarkings places ≠ [] then .error (.nonBinaryMarkings (badMarkings places))
    else if heavyArcs arcs ≠ [] then .error (.nonUnitWeights (heavyArcs arcs))
    else .ok ()
  else .ok ()

/-- Embeds `parsePNML` (source lines 78-187) applied to the abstract parsed
document: collection, endpoint resolution, isolated-node check, optional
1-safe checks, in the source's order. -/
def parsePNML (raw : RawNet) (require_1safe : Bool) : Except ParseError PetriNet :=
  (collectPlaces raw.places []).bind fun places =>
  (collectTransitions raw.transitions []).bind fun transitions =>
  (collectArcs raw.arcs []).bind fun arcs =>
  (attachArcs places transitions arcs).bind fun pt =>
  (checkIsolated pt.1 pt.2).bind fun _ =>
  (check1safe require_1safe pt.1 arcs).bind fun _ =>
  .ok { id := raw.id, places := pt.1, transitions := pt.2, arcs := arcs }

/-- Builds `pre[tid]` for one transition (source lines 214-217):
incoming arcs whose *source is a place*; other arcs are skipped.
(The Python lookup `petrinet.arcs[aid]` raises on a dangling arc id; the
`none` branch is unreachable on nets whose incidence lists resolve.) -/
def presetOf (net : PetriNet) (t : Transition) : Finset String :=
  (t.incoming.filterMap fun aid =>
    match lookupA net.arcs aid with
    | some arc => if isKey net.places arc.source then some arc.source else none
    | none => none).toFinset

/-- Builds `post[tid]` (source lines 218-221): outgoing arcs whose
*target is a place*. -/
def postsetOf (net : PetriNet) (t : Transition) : Finset String :=
  (t.outgoing.filterMap fun aid =>
    match lookupA net.arcs aid with
    | some arc => if isKey net.places arc.target then some arc.target else none
    | none => none).toFinset

/-- Reads `pre[tid]` as a function of the transition id. -/
def preT (net : PetriNet) (tid : String) : Finset String :=
  match lookupA net.transitions tid with
  | some t => presetOf net t
  | none => ∅

/-- Reads `post[tid]` as a function of the transition id. -/
def postT (net : PetriNet) (tid : String) : Finset String :=
  match lookupA net.transitions tid with
  | some t => postsetOf net t
  | none => ∅

/-- Initial marking `M0` (source line 224): places with positive
initial marking. -/
def M0 (net : PetriNet) : Finset String :=
  ((net.places.filter fun q => 0 < q.2.initial_marking).map Prod.fst).toFinset

/-- Embeds `sorted(petrinet.transitions.keys())` (source line 240): ascending
lexicographic (code-point) order on the ids. -/
def sortedTids (net : PetriNet) : List String :=
  (net.transitions.map Prod.fst).insertionSort (fun a b => strLe a b = true)

/-- The successors computed in the inner loop (source lines 240-242): one
pair `(tid, (M \ pre[tid]) ∪ post[tid])` per enabled transition, in the
order the transitions are tried. -/
def firedSuccs (pre post : String → Finset String) (tids : List String)
    (M : Finset String) : List (String × Finset String) :=
  tids.filterMap fun tid =>
    if pre tid ⊆ M then some (tid, (M \ pre tid) ∪ post tid) else none

/-- Of the fired successors, those actually appended to the container
(source lines 243-244): the ones not yet visited. -/
def pushedSuccs (pre post : String → Finset String) (tids : List String)
    (visited : Finset (Finset String)) (M : Finset String) : List (Finset String) :=
  (firedSuccs pre post tids M).filterMap fun s =>
    if s.2 ∈ visited then none else some s.2

/-- Embeds `container.pop()` / `container.pop(0)` (source lines 232-235):
last element for DFS, first element for BFS. -/
def popNext (dfs : Bool) (container : List (Finset String)) :
    Option (Finset String × List (Finset String)) :=
  match dfs with
  | true => container.getLast?.map (fun M => (M, container.dropLast))
  | false =>
    match container with
    | [] => none
    | M :: rest => some (M, rest)

/-- Union of all markings in a list (used only by the termination
measure of `explore`). -/
def unionList (l : List (Finset String)) : Finset String :=
  l.foldr (· ∪ ·) ∅

/-- Union of all postsets (used only by the termination measure). -/
def postUnion (post : String → Finset String) (tids : List String) : Finset String :=
  tids.foldr (fun tid acc => post tid ∪ acc) ∅

/-- Termination measure for the worklist loop: unvisited subsets of the
relevant universe, weighted by the number of transitions, plus the
container length. -/
def exploreMeasure (post : String → Finset String) (tids : List String)
    (visited : Finset (Finset String)) (container : List (Finset String)) : Nat :=
  ((postUnion post tids ∪ unionList container).powerset \ visited).card
    * (tids.length + 1) + container.length

/-- The `while container:` worklist loop of `compute_reachable_markings`
(source lines 230-244): pop a marking; if unvisited, record it and push
its not-yet-visited successors. -/
def explore (pre post : String → Finset String) (tids : List String) (dfs : Bool)
    (visited : Finset (Finset String)) (container : List (Finset String)) :
    List (Finset String) :=
  match hp : popNext dfs container with
  | none => []
  | some (M, rest) =>
    if hM : M ∈ visited then
      explore pre post tids dfs visited rest
    else
      M :: explore pre post tids dfs (insert M visited)
        (rest ++ pushedSuccs pre post tids (insert M visited) M)
termination_by exploreMeasure post tids visited container
decreasing_by
  · -- popped marking already visited: the container shrinks, the
    -- universe does not grow
    have hdec : container = M :: rest ∨ container = rest ++ [M] := by
      cases dfs with
      | true =>
        right
        simp only [popNext] at hp
        rw [Option.map_eq_some'] at hp
        obtain ⟨a, ha, hb⟩ := hp
        have hMa : a = M := congrArg Prod.fst hb
        have hrest : container.dropLast = rest := congrArg Prod.snd hb
        have hnil : container ≠ [] := by
          intro hc
          rw [hc] at ha
          simp at ha
        have hg := List.getLast?_eq_getLast container hnil
        rw [hg] at ha
        have haa : container.getLast hnil = a := Option.some_injective _ ha
        calc container = container.dropLast ++ [container.getLast hnil] :=
              (List.dropLast_append_getLast hnil).symm
          _ = rest ++ [M] := by rw [hrest, haa, hMa]
      | false =>
        left
        cases container with
        | nil => simp [popNext] at hp
        | cons c cs =>
          simp only [popNext] at hp
          simp at hp
          rw [hp.1, hp.2]
    have hcons : ∀ (x : Finset String) (xs : List (Finset String)),
        unionList (x :: xs) = x ∪ unionList xs := fun _ _ => rfl
    have happ : ∀ (l₁ l₂ : List (Finset String)),
        unionList (l₁ ++ l₂) = unionList l₁ ∪ unionList l₂ := by
      intro l₁ l₂
      induction l₁ with
      | nil => simp [unionList]
      | cons x xs ih => rw [List.cons_append, hcons, hcons, ih, Finset.union_assoc]
    have hlen : container.length = rest.length + 1 := by
      rcases hdec with h | h <;> rw [h] <;> simp
    have hcsub : unionList rest ⊆ unionList container := by
      rcases hdec with h | h <;> rw [h]
      · rw [hcons]; exact Finset.subset_union_right
      · rw [happ]; exact Finset.subset_union_left
    have hVsub : postUnion post tids ∪ unionList rest
        ⊆ postUnion post tids ∪ unionList container :=
      Finset.union_subset_union (Finset.Subset.refl _) hcsub
    have hcard : ((postUnion post tids ∪ unionList rest).powerset \ visited).card
        ≤ ((postUnion post tids ∪ unionList container).powerset \ visited).card :=
      Finset.card_le_card
        (Finset.sdiff_subset_sdiff (Finset.powerset_mono.mpr hVsub) (Finset.Subset.refl _))
    unfold exploreMeasure
    have hmul := Nat.mul_le_mul_right (tids.length + 1) hcard
    omega
  · -- popped marking is new: strictly fewer unvisited subsets of the
    -- universe remain
    have hdec : container = M :: rest ∨ container = rest ++ [M] := by
      cases dfs with
      | true =>
        right
        simp only [popNext] at hp
        rw [Option.map_eq_some'] at hp
        obtain ⟨a, ha, hb⟩ := hp
        have hMa : a = M := congrArg Prod.fst hb
        have hrest : container.dropLast = rest := congrArg Prod.snd hb
        have hnil : container ≠ [] := by
          intro hc
          rw [hc] at ha
          simp at ha
        have hg := List.getLast?_eq_getLast container hnil
        rw [hg] at ha
        have haa : container.getLast hnil = a := Option.some_injective _ ha
        calc container = container.dropLast ++ [container.getLast hnil] :=
              (List.dropLast_append_getLast hnil).symm
          _ = rest ++ [M] := by rw [hrest, haa, hMa]
      | false =>
        left
        cases container with
        | nil => simp [popNext] at hp
        | cons c cs =>
          simp only [popNext] at hp
          simp at hp
          rw [hp.1, hp.2]
    have hcons : ∀ (x : Finset String) (xs : List (Finset String)),
        unionList (x :: xs) = x ∪ unionList xs := fun _ _ => rfl
    have happ : ∀ (l₁ l₂ : List (Finset String)),
        unionList (l₁ ++ l₂) = unionList l₁ ∪ unionList l₂ := by
      intro l₁ l₂
      induction l₁ with
      | nil => simp [unionList]
      | cons x xs ih => rw [List.cons_append, hcons, hcons, ih, Finset.union_assoc]
    have hlen : container.length = rest.length + 1 := by
      rcases hdec with h | h <;> rw [h] <;> simp
    have hcsub : unionList rest ⊆ unionList container := by
      rcases hdec with h | h <;> rw [h]
      · rw [hcons]; exact Finset.subset_union_right
      · rw [happ]; exact Finset.subset_union_left
    have hMmem : M ∈ container := by
      rcases hdec with h | h <;> rw [h] <;> simp
    have hmemsub : ∀ (l : List (Finset String)) (A : Finset String),
        A ∈ l → A ⊆ unionList l := by
      intro l
      induction l with
      | nil => intro A hA; simp at hA
      | cons y ys ih =>
        intro A hA
        rw [hcons]
        rcases List.mem_cons.mp hA with h | h
        · rw [h]; exact Finset.subset_union_left
        · exact (ih A h).trans Finset.subset_union_right
    have hMsub : M ⊆ postUnion post tids ∪ unionList container :=
      ((hmemsub container M hMmem).trans Finset.subset_union_right)
    have hpostsub : ∀ (l : List String) (tid : String),
        tid ∈ l → post tid ⊆ postUnion post l := by
      intro l
      induction l with
      | nil => intro tid h; simp at h
      | cons y ys ih =>
        intro tid h
        have hc : postUnion post (y :: ys) = post y ∪ postUnion post ys := rfl
        rw [hc]
        rcases List.mem_cons.mp h with h1 | h1
        · rw [h1]; exact Finset.subset_union_left
        · exact (ih tid h1).trans Finset.subset_union_right
    have hunion_le : ∀ (l : List (Finset String)) (A : Finset String),
        (∀ X ∈ l, X ⊆ A) → unionList l ⊆ A := by
      intro l A
      induction l with
      | nil => intro _; simp [unionList]
      | cons y ys ih =>
        intro h
        rw [hcons]
        exact Finset.union_subset (h y (by simp))
          (ih fun X hX => h X (List.mem_cons_of_mem _ hX))
    have hpushsub : ∀ X ∈ pushedSuccs pre post tids (insert M visited) M,
        X ⊆ postUnion post tids ∪ unionList container := by
      intro X hX
      unfold pushedSuccs at hX
      obtain ⟨s, hs, hsome⟩ := List.mem_filterMap.mp hX
      unfold firedSuccs at hs
      by_cases hv : s.2 ∈ insert M visited
      · rw [if_pos hv] at hsome
        simp at hsome
      · rw [if_neg hv] at hsome
        have hX2 : s.2 = X := Option.some_injective _ hsome
        obtain ⟨tid, htid, hfs⟩ := List.mem_filterMap.mp hs
        by_cases he : pre tid ⊆ M
        · rw [if_pos he] at hfs
          have hs2 : (tid, (M \ pre tid) ∪ post tid) = s := Option.some_injective _ hfs
          have hXeq : X = (M \ pre tid) ∪ post tid := by
            rw [← hX2, ← hs2]
          rw [hXeq]
          apply Finset.union_subset
          · exact (Finset.sdiff_subset).trans hMsub
          · exact (hpostsub tids tid htid).trans Finset.subset_union_left
        · rw [if_neg he] at hfs
          simp at hfs
    have hV' : postUnion post tids ∪
        unionList (rest ++ pushedSuccs pre post tids (insert M visited) M)
        ⊆ postUnion post tids ∪ unionList container := by
      apply Finset.union_subset Finset.subset_union_left
      rw [happ]
      apply Finset.union_subset
      · exact hcsub.trans Finset.subset_union_right
      · exact hunion_le _ _ hpushsub
    have hsub2 : ((postUnion post tids ∪
        unionList (rest ++ pushedSuccs pre post tids (insert M visited) M)).powerset
          \ insert M visited)
        ⊆ ((postUnion post tids ∪ unionList container).powerset \ visited) :=
      Finset.sdiff_subset_sdiff (Finset.powerset_mono.mpr hV')
        (Finset.subset_insert _ _)
    have hssub : ((postUnion post tids ∪
        unionList (rest ++ pushedSuccs pre post tids (insert M visited) M)).powerset
          \ insert M visited)
        ⊂ ((postUnion post tids ∪ unionList container).powerset \ visited) := by
      rw [Finset.ssubset_iff_of_subset hsub2]
      refine ⟨M, ?_, ?_⟩
      · rw [Finset.mem_sdiff, Finset.mem_powerset]
        exact ⟨hMsub, hM⟩
      · rw [Finset.mem_sdiff]
        intro hcontra
        exact hcontra.2 (Finset.mem_insert_self M visited)
    have hcard := Finset.card_lt_card hssub
    have hplen : (pushedSuccs pre post tids (insert M visited) M).length
        ≤ tids.length := by
      unfold pushedSuccs firedSuccs
      exact (List.length_filterMap_le _ _).trans (List.length_filterMap_le _ _)
    unfold exploreMeasure
    have hmul := Nat.mul_le_mul_right (tids.length + 1) (Nat.succ_le_of_lt hcard)
    rw [Nat.succ_mul] at hmul
    simp only [List.length_append]
    omega

/-- Embeds `compute_reachable_markings` (source lines 203-246). -/
def compute_reachable_markings (net : PetriNet) (dfs : Bool) : List (Finset String) :=
  explore (preT net) (postT net) (sortedTids net) dfs ∅ [M0 net]

/-- Reachability in the marking graph: `ReachFrom pre post tids M N`
means `N` arises from `M` by firing finitely many enabled transitions
drawn from `tids` (the claims' notion of "reachable set"). -/
inductive ReachFrom (pre post : String → Finset String) (tids : List String) :
    Finset String → Finset String → Prop
  | refl1 (M : Finset String) : ReachFrom pre post tids M M
  | tail {M N : Finset String} {tid : String} :
      ReachFrom pre post tids M N → tid ∈ tids → pre tid ⊆ N →
      ReachFrom pre post tids M ((N \ pre tid) ∪ post tid)

/-- Worklist invariant: every enabled successor of a visited marking is
itself visited or still waiting in the container. -/
def WorklistInv (pre post : String → Finset String) (tids : List String)
    (visited : Finset (Finset String)) (container : List (Finset String)) : Prop :=
  ∀ M ∈ visited, ∀ tid ∈ tids, pre tid ⊆ M →
    ((M \ pre tid) ∪ post tid) ∈ visited ∨ ((M \ pre tid) ∪ post tid) ∈ container

/-- A net extended with one extra arc, registered into the incidence
lists exactly as the cross-linking step of `parsePNML` does (source
lines 150-157): places take priority over transitions at each endpoint. -/
def extendWithArc (net : PetriNet) (aid : String) (arc : Arc) : PetriNet :=
  { id := net.id
    places :=
      (let ps1 := if isKey net.places arc.source then
          updateVal net.places arc.source
            (fun p => { p with outgoing := p.outgoing ++ [aid] })
        else net.places
       if isKey net.places arc.target then
          updateVal ps1 arc.target
            (fun p => { p with incoming := p.incoming ++ [aid] })
        else ps1)
    transitions :=
      (let ts1 := if isKey net.places arc.source then net.transitions
        else updateVal net.transitions arc.source
          (fun t => { t with outgoing := t.outgoing ++ [aid] })
       if isKey net.places arc.target then ts1
        else updateVal ts1 arc.target
          (fun t => { t with incoming := t.incoming ++ [aid] }))
    arcs := net.arcs ++ [(aid, arc)] }

/-- Scenario A net: `p1 --a1--> t1 --a2--> p2`, token initially on `p1`. -/
def netA : PetriNet :=
  { id := some "scenarioA"
    places := [("p1", { id := "p1", initial_marking := 1, outgoing := ["a1"] }),
               ("p2", { id := "p2", incoming := ["a2"] })]
    transitions := [("t1", { id := "t1", incoming := ["a1"], outgoing := ["a2"] })]
    arcs := [("a1", { id := "a1", source := "p1", target := "t1" }),
             ("a2", { id := "a2", source := "t1", target := "p2" })] }

/-- Scenario D net: a two-place/two-transition cycle, the token
alternating between `p1` and `p2`. -/
def netD : PetriNet :=
  { id := some "scenarioD"
    places := [("p1", { id := "p1", initial_marking := 1, incoming := ["a4"],
                        outgoing := ["a1"] }),
               ("p2", { id := "p2", incoming := ["a2"], outgoing := ["a3"] })]
    transitions := [("t1", { id := "t1", incoming := ["a1"], outgoing := ["a2"] }),
                    ("t2", { id := "t2", incoming := ["a3"], outgoing := ["a4"] })]
    arcs := [("a1", { id := "a1", source := "p1", target := "t1" }),
             ("a2", { id := "a2", source := "t1", target := "p2" }),
             ("a3", { id := "a3", source := "p2", target := "t2" }),
             ("a4", { id := "a4", source := "t2", target := "p1" })] }

/-- Raw document for scenario A, as handed to `parsePNML`. -/
def rawA : RawNet :=
  { id := some "scenarioA"
    places := [{ id := some "p1", im_text := some "1" }, { id := some "p2" }]
    transitions := [{ id := some "t1" }]
    arcs := [{ id := some "a1", source := some "p1", target := some "t1" },
             { id := some "a2", source := some "t1", target := some "p2" }] }

/-- Raw document in which the single id `x` names both a place and a
transition, with an arc `x → x`. -/
def rawShared : RawNet :=
  { id := some "shared"
    places := [{ id := some "x", im_text := some "1" }]
    transitions := [{ id := some "x" }]
    arcs := [{ id := some "a1", source := some "x", target := some "x" }] }

/-! Basic lemmas about the worklist primitives. -/

theorem popNext_nil (dfs : Bool) : popNext dfs ([] : List (Finset String)) = none := by
  cases dfs <;> rfl

theorem popNext_eq_none {dfs : Bool} {container : List (Finset String)}
    (h : popNext dfs container = none) : container = [] := by
  cases dfs with
  | false =>
    cases container with
    | nil => rfl
    | cons c cs => simp [popNext] at h
  | true =>
    cases container with
    | nil => rfl
    | cons c cs =>
      simp only [popNext] at h
      rw [Option.map_eq_none'] at h
      rw [List.getLast?_eq_getLast _ (by simp)] at h
      cases h

theorem popNext_decomp {dfs : Bool} {container rest : List (Finset String)}
    {M : Finset String} (hp : popNext dfs container = some (M, rest)) :
    container = M :: rest ∨ container = rest ++ [M] := by
  cases dfs with
  | true =>
    right
    simp only [popNext] at hp
    rw [Option.map_eq_some'] at hp
    obtain ⟨a, ha, hb⟩ := hp
    have hMa : a = M := congrArg Prod.fst hb
    have hrest : container.dropLast = rest := congrArg Prod.snd hb
    have hnil : container ≠ [] := by
      intro hc
      rw [hc] at ha
      simp at ha
    have hg := List.getLast?_eq_getLast container hnil
    rw [hg] at ha
    have haa : container.getLast hnil = a := Option.some_injective _ ha
    calc container = container.dropLast ++ [container.getLast hnil] :=
          (List.dropLast_append_getLast hnil).symm
      _ = rest ++ [M] := by rw [hrest, haa, hMa]
  | false =>
    left
    cases container with
    | nil => simp [popNext] at hp
    | cons c cs =>
      simp only [popNext] at hp
      simp at hp
      rw [hp.1, hp.2]

theorem popNext_mem_iff {dfs : Bool} {container rest : List (Finset String)}
    {M : Finset String} (hp : popNext dfs container = some (M, rest)) :
    ∀ x, x ∈ container ↔ x = M ∨ x ∈ rest := by
  intro x
  rcases popNext_decomp hp with h | h <;> rw [h]
  · simp
  · simp [List.mem_append, or_comm]

theorem mem_firedSuccs {pre post : String → Finset String} {tids : List String}
    {M X : Finset String} {tid : String} :
    (tid, X) ∈ firedSuccs pre post tids M ↔
      tid ∈ tids ∧ pre tid ⊆ M ∧ X = (M \ pre tid) ∪ post tid := by
  unfold firedSuccs
  rw [List.mem_filterMap]
  constructor
  · rintro ⟨a, ha, hfa⟩
    by_cases he : pre a ⊆ M
    · rw [if_pos he] at hfa
      have hfa2 := Option.some_injective _ hfa
      have h1 : a = tid := congrArg Prod.fst hfa2
      have h2 : (M \ pre a) ∪ post a = X := congrArg Prod.snd hfa2
      subst h1
      exact ⟨ha, he, h2.symm⟩
    · rw [if_neg he] at hfa
      cases hfa
  · rintro ⟨h1, h2, h3⟩
    exact ⟨tid, h1, by rw [if_pos h2, h3]⟩

theorem mem_pushedSuccs {pre post : String → Finset String} {tids : List String}
    {vis : Finset (Finset String)} {M X : Finset String} :
    X ∈ pushedSuccs pre post tids vis M ↔
      X ∉ vis ∧ ∃ tid ∈ tids, pre tid ⊆ M ∧ X = (M \ pre tid) ∪ post tid := by
  unfold pushedSuccs
  rw [List.mem_filterMap]
  constructor
  · rintro ⟨s, hs, hsome⟩
    obtain ⟨stid, sx⟩ := s
    by_cases hv : sx ∈ vis
    · rw [if_pos hv] at hsome
      cases hsome
    · rw [if_neg hv] at hsome
      have hXeq : sx = X := Option.some_injective _ hsome
      subst hXeq
      rw [mem_firedSuccs] at hs
      exact ⟨hv, stid, hs.1, hs.2.1, hs.2.2⟩
  · rintro ⟨hv, tid, htid, he, hXeq⟩
    refine ⟨(tid, X), ?_, ?_⟩
    · rw [mem_firedSuccs]
      exact ⟨htid, he, hXeq⟩
    · rw [if_neg hv]

theorem reachFrom_trans {pre post : String → Finset String} {tids : List String}
    {A B C : Finset String} (h1 : ReachFrom pre post tids A B)
    (h2 : ReachFrom pre post tids B C) : ReachFrom pre post tids A C := by
  induction h2 with
  | refl1 => exact h1
  | tail hr htid hen ih => exact ReachFrom.tail ih htid hen

theorem reach_escape {pre post : String → Finset String} {tids : List String}
    {visited : Finset (Finset String)} {container : List (Finset String)}
    (hinv : WorklistInv pre post tids visited container) {M₀ X : Finset String}
    (h : ReachFrom pre post tids M₀ X) :
    M₀ ∈ visited → X ∉ visited → ∃ N ∈ container, ReachFrom pre post tids N X := by
  induction h with
  | refl1 =>
    intro h1 h2
    exact absurd h1 h2
  | @tail N tid hr htid hen ih =>
    intro h1 h2
    by_cases hN : N ∈ visited
    · rcases hinv N hN tid htid hen with hsv | hsc
      · exact absurd hsv h2
      · exact ⟨(N \ pre tid) ∪ post tid, hsc, ReachFrom.refl1 _⟩
    · obtain ⟨N', hN', hr'⟩ := ih h1 hN
      exact ⟨N', hN', ReachFrom.tail hr' htid hen⟩

theorem inv_pop_visited {pre post : String → Finset String} {tids : List String}
    {dfs : Bool} {visited : Finset (Finset String)}
    {container rest : List (Finset String)} {M : Finset String}
    (hinv : WorklistInv pre post tids visited container)
    (hp : popNext dfs container = some (M, rest)) (hM : M ∈ visited) :
    WorklistInv pre post tids visited rest := by
  intro Mv hMv tid htid hen
  rcases hinv Mv hMv tid htid hen with h | h
  · exact Or.inl h
  · rcases (popNext_mem_iff hp _).mp h with h1 | h1
    · exact Or.inl (by rw [h1]; exact hM)
    · exact Or.inr h1

theorem inv_pop_new {pre post : String → Finset String} {tids : List String}
    {dfs : Bool} {visited : Finset (Finset String)}
    {container rest : List (Finset String)} {M : Finset String}
    (hinv : WorklistInv pre post tids visited container)
    (hp : popNext dfs container = some (M, rest)) :
    WorklistInv pre post tids (insert M visited)
      (rest ++ pushedSuccs pre post tids (insert M visited) M) := by
  intro Mv hMv tid htid hen
  rcases Finset.mem_insert.mp hMv with hMvM | hMvv
  · subst hMvM
    by_cases hs : ((Mv \ pre tid) ∪ post tid) ∈ insert Mv visited
    · exact Or.inl hs
    · refine Or.inr (List.mem_append.mpr (Or.inr ?_))
      rw [mem_pushedSuccs]
      exact ⟨hs, tid, htid, hen, rfl⟩
  · rcases hinv Mv hMvv tid htid hen with h | h
    · exact Or.inl (Finset.mem_insert_of_mem h)
    · rcases (popNext_mem_iff hp _).mp h with h1 | h1
      · exact Or.inl (by rw [h1]; exact Finset.mem_insert_self _ _)
      · exact Or.inr (List.mem_append.mpr (Or.inl h1))

/-! Step equations for the worklist loop. -/

theorem explore_none {pre post : String → Finset String} {tids : List String}
    {dfs : Bool} {visited : Finset (Finset String)} {container : List (Finset String)}
    (hp : popNext dfs container = none) :
    explore pre post tids dfs visited container = [] := by
  rw [explore.eq_def]
  split
  · rfl
  · next M rest heq =>
    rw [hp] at heq
    cases heq

theorem explore_pop_visited {pre post : String → Finset String} {tids : List String}
    {dfs : Bool} {visited : Finset (Finset String)}
    {container rest : List (Finset String)} {M : Finset String}
    (hp : popNext dfs container = some (M, rest)) (hM : M ∈ visited) :
    explore pre post tids dfs visited container =
      explore pre post tids dfs visited rest := by
  conv_lhs => rw [explore.eq_def]
  split
  · next heq =>
    rw [hp] at heq
    cases heq
  · next M' rest' heq =>
    rw [hp] at heq
    cases heq
    rw [dif_pos hM]

theorem explore_pop_new {pre post : String → Finset String} {tids : List String}
    {dfs : Bool} {visited : Finset (Finset String)}
    {container rest : List (Finset String)} {M : Finset String}
    (hp : popNext dfs container = some (M, rest)) (hM : M ∉ visited) :
    explore pre post tids dfs visited container =
      M :: explore pre post tids dfs (insert M visited)
        (rest ++ pushedSuccs pre post tids (insert M visited) M) := by
  conv_lhs => rw [explore.eq_def]
  split
  · next heq =>
    rw [hp] at heq
    cases heq
  · next M' rest' heq =>
    rw [hp] at heq
    cases heq
    rw [dif_neg hM]

/-! Correctness of the worklist loop. -/

theorem explore_mem (pre post : String → Finset String) (tids : List String) (dfs : Bool)
    (visited : Finset (Finset String)) (container : List (Finset String)) :
    WorklistInv pre post tids visited container →
    ∀ X, (X ∈ explore pre post tids dfs visited container ↔
      X ∉ visited ∧ ∃ M ∈ container, ReachFrom pre post tids M X) := by
  induction visited, container using explore.induct pre post tids dfs with
  | case1 visited container hp =>
    intro _ X
    rw [explore_none hp, popNext_eq_none hp]
    simp
  | case2 visited container M rest hp hM ih =>
    intro hinv X
    have hinv' := inv_pop_visited hinv hp hM
    rw [explore_pop_visited hp hM, ih hinv' X]
    constructor
    · rintro ⟨hX, M₀, h₀, hr⟩
      exact ⟨hX, M₀, (popNext_mem_iff hp M₀).mpr (Or.inr h₀), hr⟩
    · rintro ⟨hX, M₀, h₀, hr⟩
      refine ⟨hX, ?_⟩
      rcases (popNext_mem_iff hp M₀).mp h₀ with h1 | h1
      · subst h1
        obtain ⟨N, hN, hrN⟩ := reach_escape hinv' hr hM hX
        exact ⟨N, hN, hrN⟩
      · exact ⟨M₀, h1, hr⟩
  | case3 visited container M rest hp hM ih =>
    intro hinv X
    have hinv2 := inv_pop_new hinv hp
    rw [explore_pop_new hp hM, List.mem_cons, ih hinv2 X]
    constructor
    · rintro (hXM | ⟨hX, M₀, h₀, hr⟩)
      · rw [hXM]
        exact ⟨hM, M, (popNext_mem_iff hp M).mpr (Or.inl rfl), ReachFrom.refl1 M⟩
      · have hXv : X ∉ visited := fun hc => hX (Finset.mem_insert_of_mem hc)
        rcases List.mem_append.mp h₀ with h1 | h1
        · exact ⟨hXv, M₀, (popNext_mem_iff hp M₀).mpr (Or.inr h1), hr⟩
        · rw [mem_pushedSuccs] at h1
          obtain ⟨hnv, tid, htid, hen, hEq⟩ := h1
          have hstep : ReachFrom pre post tids M M₀ := by
            rw [hEq]
            exact ReachFrom.tail (ReachFrom.refl1 M) htid hen
          exact ⟨hXv, M, (popNext_mem_iff hp M).mpr (Or.inl rfl),
            reachFrom_trans hstep hr⟩
    · rintro ⟨hXv, M₀, h₀, hr⟩
      by_cases hXM : X = M
      · exact Or.inl hXM
      · right
        have hXi : X ∉ insert M visited := by
          rw [Finset.mem_insert]
          rintro (h | h)
          · exact hXM h
          · exact hXv h
        refine ⟨hXi, ?_⟩
        rcases (popNext_mem_iff hp M₀).mp h₀ with h1 | h1
        · subst h1
          obtain ⟨N, hN, hrN⟩ :=
            reach_escape hinv2 hr (Finset.mem_insert_self M₀ visited) hXi
          exact ⟨N, hN, hrN⟩
        · exact ⟨M₀, List.mem_append.mpr (Or.inl h1), hr⟩

theorem explore_mem_reach (pre post : String → Finset String) (tids : List String)
    (dfs : Bool) (start X : Finset String) :
    X ∈ explore pre post tids dfs ∅ [start] ↔ ReachFrom pre post tids start X := by
  have hiv : WorklistInv pre post tids ∅ [start] := by
    intro Mv hMv
    exact absurd hMv (Finset.not_mem_empty Mv)
  rw [explore_mem pre post tids dfs ∅ [start] hiv X]
  simp

theorem explore_fresh (pre post : String → Finset String) (tids : List String)
    (dfs : Bool) (visited : Finset (Finset String)) (container : List (Finset String)) :
    ∀ X ∈ explore pre post tids dfs visited container, X ∉ visited := by
  induction visited, container using explore.induct pre post tids dfs with
  | case1 visited container hp =>
    rw [explore_none hp]
    intro X hX
    cases hX
  | case2 visited container M rest hp hM ih =>
    rw [explore_pop_visited hp hM]
    exact ih
  | case3 visited container M rest hp hM ih =>
    rw [explore_pop_new hp hM]
    intro X hX
    rcases List.mem_cons.mp hX with h | h
    · rw [h]; exact hM
    · intro hc
      exact ih X h (Finset.mem_insert_of_mem hc)

theorem explore_nodup (pre post : String → Finset String) (tids : List String)
    (dfs : Bool) (visited : Finset (Finset String)) (container : List (Finset String)) :
    (explore pre post tids dfs visited container).Nodup := by
  induction visited, container using explore.induct pre post tids dfs with
  | case1 visited container hp =>
    rw [explore_none hp]
    exact List.nodup_nil
  | case2 visited container M rest hp hM ih =>
    rw [explore_pop_visited hp hM]
    exact ih
  | case3 visited container M rest hp hM ih =>
    rw [explore_pop_new hp hM]
    rw [List.nodup_cons]
    refine ⟨?_, ih⟩
    intro hc
    exact explore_fresh pre post tids dfs (insert M visited) _ M hc
      (Finset.mem_insert_self M visited)

theorem explore_subset (pre post : String → Finset String) (tids : List String)
    (dfs : Bool) (A : Finset String) (hpost : ∀ tid ∈ tids, post tid ⊆ A)
    (visited : Finset (Finset String)) (container : List (Finset String)) :
    (∀ m ∈ container, m ⊆ A) →
    ∀ X ∈ explore pre post tids dfs visited container, X ⊆ A := by
  induction visited, container using explore.induct pre post tids dfs with
  | case1 visited container hp =>
    intro _ X hX
    rw [explore_none hp] at hX
    cases hX
  | case2 visited container M rest hp hM ih =>
    intro hc X hX
    rw [explore_pop_visited hp hM] at hX
    exact ih (fun m hm => hc m ((popNext_mem_iff hp m).mpr (Or.inr hm))) X hX
  | case3 visited container M rest hp hM ih =>
    intro hc X hX
    rw [explore_pop_new hp hM] at hX
    have hMA : M ⊆ A := hc M ((popNext_mem_iff hp M).mpr (Or.inl rfl))
    rcases List.mem_cons.mp hX with h | h
    · rw [h]; exact hMA
    · refine ih ?_ X h
      intro m hm
      rcases List.mem_append.mp hm with h1 | h1
      · exact hc m ((popNext_mem_iff hp m).mpr (Or.inr h1))
      · rw [mem_pushedSuccs] at h1
        obtain ⟨_, tid, htid, hen, hEq⟩ := h1
        rw [hEq]
        exact Finset.union_subset (Finset.sdiff_subset.trans hMA) (hpost tid htid)

/-! Net-level facts feeding the loop. -/

theorem isKey_iff_mem {α : Type} (l : List (String × α)) (k : String) :
    isKey l k = true ↔ k ∈ l.map Prod.fst := by
  unfold isKey
  rw [List.any_eq_true, List.mem_map]
  constructor
  · rintro ⟨q, hq, hbeq⟩
    rw [beq_iff_eq] at hbeq
    exact ⟨q, hq, hbeq⟩
  · rintro ⟨q, hq, hbeq⟩
    exact ⟨q, hq, by rw [beq_iff_eq]; exact hbeq⟩

theorem postT_subset (net : PetriNet) (tid : String) :
    postT net tid ⊆ (net.places.map Prod.fst).toFinset := by
  unfold postT
  split
  · next t heq =>
    unfold postsetOf
    intro p hp
    rw [List.mem_toFinset] at hp ⊢
    obtain ⟨aid, ha, hsome⟩ := List.mem_filterMap.mp hp
    cases hl : lookupA net.arcs aid with
    | none =>
      simp only [hl] at hsome
      cases hsome
    | some arc =>
      simp only [hl] at hsome
      by_cases hk : isKey net.places arc.target
      · rw [if_pos hk] at hsome
        have htp : arc.target = p := Option.some_injective _ hsome
        rw [← htp]
        exact (isKey_iff_mem _ _).mp hk
      · rw [if_neg hk] at hsome
        cases hsome
  · intro p hp
    cases hp

theorem preT_subset (net : PetriNet) (tid : String) :
    preT net tid ⊆ (net.places.map Prod.fst).toFinset := by
  unfold preT
  split
  · next t heq =>
    unfold presetOf
    intro p hp
    rw [List.mem_toFinset] at hp ⊢
    obtain ⟨aid, ha, hsome⟩ := List.mem_filterMap.mp hp
    cases hl : lookupA net.arcs aid with
    | none =>
      simp only [hl] at hsome
      cases hsome
    | some arc =>
      simp only [hl] at hsome
      by_cases hk : isKey net.places arc.source
      · rw [if_pos hk] at hsome
        have htp : arc.source = p := Option.some_injective _ hsome
        rw [← htp]
        exact (isKey_iff_mem _ _).mp hk
      · rw [if_neg hk] at hsome
        cases hsome
  · intro p hp
    cases hp

theorem M0_subset (net : PetriNet) : M0 net ⊆ (net.places.map Prod.fst).toFinset := by
  unfold M0
  intro p hp
  rw [List.mem_toFinset] at hp ⊢
  rw [List.mem_map] at hp ⊢
  obtain ⟨q, hq, hqp⟩ := hp
  exact ⟨q, List.mem_of_mem_filter hq, hqp⟩

/-! The code-point order used by `sorted`. -/

theorem strLt_asymm : ∀ as bs : List Char, strLt as bs = true → strLt bs as = false := by
  intro as
  induction as with
  | nil =>
    intro bs h
    cases bs with
    | nil => simp [strLt] at h
    | cons b bs => simp [strLt]
  | cons a as ih =>
    intro bs h
    cases bs with
    | nil => simp [strLt] at h
    | cons b bs =>
      simp only [strLt] at h ⊢
      by_cases h1 : a.toNat < b.toNat
      · rw [if_neg (by omega), if_pos h1]
      · rw [if_neg h1] at h
        by_cases h2 : b.toNat < a.toNat
        · rw [if_pos h2] at h
          cases h
        · rw [if_neg h2] at h
          rw [if_neg h1, if_neg h2]
          exact ih bs h

theorem strLt_step : ∀ cs as bs : List Char,
    strLt cs as = true → strLt cs bs = true ∨ strLt bs as = true := by
  intro cs
  induction cs with
  | nil =>
    intro as bs h
    cases as with
    | nil => simp [strLt] at h
    | cons a as =>
      cases bs with
      | nil => right; simp [strLt]
      | cons b bs => left; simp [strLt]
  | cons c cs ih =>
    intro as bs h
    cases as with
    | nil => simp [strLt] at h
    | cons a as =>
      cases bs with
      | nil => right; simp [strLt]
      | cons b bs =>
        simp only [strLt] at h ⊢
        by_cases hcb : c.toNat < b.toNat
        · left
          rw [if_pos hcb]
        · by_cases hbc : b.toNat < c.toNat
          · -- b < c; show strLt (b :: bs) (a :: as)
            right
            by_cases hca : c.toNat < a.toNat
            · rw [if_pos (by omega)]
            · rw [if_neg hca] at h
              by_cases hac : a.toNat < c.toNat
              · rw [if_pos hac] at h
                cases h
              · -- a.toNat = c.toNat, so b < a
                rw [if_pos (by omega)]
          · -- b.toNat = c.toNat
            by_cases hca : c.toNat < a.toNat
            · right
              rw [if_pos (by omega)]
            · rw [if_neg hca] at h
              by_cases hac : a.toNat < c.toNat
              · rw [if_pos hac] at h
                cases h
              · rw [if_neg hac] at h
                rcases ih as bs h with h3 | h3
                · left
                  rw [if_neg hcb, if_neg hbc]
                  exact h3
                · right
                  rw [if_neg (by omega), if_neg (by omega)]
                  exact h3

theorem strLe_total (a b : String) : strLe a b = true ∨ strLe b a = true := by
  cases hb : strLt b.data a.data with
  | false =>
    left
    simp [strLe, hb]
  | true =>
    right
    simp [strLe, strLt_asymm _ _ hb]

theorem strLe_trans (a b c : String) :
    strLe a b = true → strLe b c = true → strLe a c = true := by
  intro h1 h2
  simp only [strLe, Bool.not_eq_true'] at h1 h2 ⊢
  cases hca : strLt c.data a.data with
  | false => rfl
  | true =>
    rcases strLt_step c.data a.data b.data hca with h3 | h3
    · rw [h2] at h3
      cases h3
    · rw [h1] at h3
      cases h3

theorem sortedTids_sorted (net : PetriNet) :
    List.Sorted (fun a b => strLe a b = true) (sortedTids net) := by
  haveI : IsTotal String (fun a b => strLe a b = true) := ⟨strLe_total⟩
  haveI : IsTrans String (fun a b => strLe a b = true) := ⟨strLe_trans⟩
  exact List.sorted_insertionSort _ _

theorem sortedTids_perm (net : PetriNet) :
    (sortedTids net).Perm (net.transitions.map Prod.fst) :=
  List.perm_insertionSort _ _

theorem mem_sortedTids (net : PetriNet) (tid : String) :
    tid ∈ sortedTids net ↔ tid ∈ net.transitions.map Prod.fst :=
  (sortedTids_perm net).mem_iff

/-! Concrete scenario runs. -/

theorem computeA_bfs : compute_reachable_markings netA false = [{"p1"}, {"p2"}] := by
  unfold compute_reachable_markings
  have h1 : popNext false [M0 netA] = some (M0 netA, []) := by decide
  have h2 : M0 netA ∉ (∅ : Finset (Finset String)) := by decide
  rw [explore_pop_new h1 h2]
  have h3 : ([] : List (Finset String)) ++
      pushedSuccs (preT netA) (postT netA) (sortedTids netA)
        (insert (M0 netA) ∅) (M0 netA) = [{"p2"}] := by decide
  rw [h3]
  have h4 : popNext false [({"p2"} : Finset String)] = some ({"p2"}, []) := by decide
  have h5 : ({"p2"} : Finset String) ∉ insert (M0 netA) (∅ : Finset (Finset String)) := by
    decide
  rw [explore_pop_new h4 h5]
  have h6 : ([] : List (Finset String)) ++
      pushedSuccs (preT netA) (postT netA) (sortedTids netA)
        (insert {"p2"} (insert (M0 netA) ∅)) ({"p2"} : Finset String) = [] := by decide
  rw [h6]
  rw [explore_none (popNext_nil false)]
  decide

theorem computeD_bfs : compute_reachable_markings netD false = [{"p1"}, {"p2"}] := by
  unfold compute_reachable_markings
  have h1 : popNext false [M0 netD] = some (M0 netD, []) := by decide
  have h2 : M0 netD ∉ (∅ : Finset (Finset String)) := by decide
  rw [explore_pop_new h1 h2]
  have h3 : ([] : List (Finset String)) ++
      pushedSuccs (preT netD) (postT netD) (sortedTids netD)
        (insert (M0 netD) ∅) (M0 netD) = [{"p2"}] := by decide
  rw [h3]
  have h4 : popNext false [({"p2"} : Finset String)] = some ({"p2"}, []) := by decide
  have h5 : ({"p2"} : Finset String) ∉ insert (M0 netD) (∅ : Finset (Finset String)) := by
    decide
  rw [explore_pop_new h4 h5]
  have h6 : ([] : List (Finset String)) ++
      pushedSuccs (preT netD) (postT netD) (sortedTids netD)
        (insert {"p2"} (insert (M0 netD) ∅)) ({"p2"} : Finset String) = [] := by decide
  rw [h6]
  rw [explore_none (popNext_nil false)]
  decide

theorem computeD_dfs : compute_reachable_markings netD true = [{"p1"}, {"p2"}] := by
  unfold compute_reachable_markings
  have h1 : popNext true [M0 netD] = some (M0 netD, []) := by decide
  have h2 : M0 netD ∉ (∅ : Finset (Finset String)) := by decide
  rw [explore_pop_new h1 h2]
  have h3 : ([] : List (Finset String)) ++
      pushedSuccs (preT netD) (postT netD) (sortedTids netD)
        (insert (M0 netD) ∅) (M0 netD) = [{"p2"}] := by decide
  rw [h3]
  have h4 : popNext true [({"p2"} : Finset String)] = some ({"p2"}, []) := by decide
  have h5 : ({"p2"} : Finset String) ∉ insert (M0 netD) (∅ : Finset (Finset String)) := by
    decide
  rw [explore_pop_new h4 h5]
  have h6 : ([] : List (Finset String)) ++
      pushedSuccs (preT netD) (postT netD) (sortedTids netD)
        (insert {"p2"} (insert (M0 netD) ∅)) ({"p2"} : Finset String) = [] := by decide
  rw [h6]
  rw [explore_none (popNext_nil true)]
  decide

/-! Dictionary update lemmas. -/

theorem updateVal_map_fst {α : Type} (l : List (String × α)) (k : String) (f : α → α) :
    (updateVal l k f).map Prod.fst = l.map Prod.fst := by
  unfold updateVal
  rw [List.map_map]
  apply List.map_congr_left
  intro q _
  simp only [Function.comp_apply]
  by_cases h : q.1 == k
  · rw [if_pos h]
  · rw [if_neg h]

theorem mem_updateVal_ne {α : Type} {l : List (String × α)} {k : String} {f : α → α}
    {q : String × α} (hq : q ∈ updateVal l k f) (hne : q.1 ≠ k) : q ∈ l := by
  unfold updateVal at hq
  obtain ⟨q', hq', heq⟩ := List.mem_map.mp hq
  by_cases h : q'.1 == k
  · exfalso
    rw [if_pos h] at heq
    apply hne
    rw [← heq]
    exact eq_of_beq h
  · rw [if_neg h] at heq
    rw [← heq]
    exact hq'

/-! Facts about the collection and cross-linking passes. -/

theorem collectTransitions_empty_lists :
    ∀ (rts : List RawTransition) (acc res : List (String × Transition)),
    (∀ q ∈ acc, q.2.incoming = [] ∧ q.2.outgoing = []) →
    collectTransitions rts acc = .ok res →
    ∀ q ∈ res, q.2.incoming = [] ∧ q.2.outgoing = [] := by
  intro rts
  induction rts with
  | nil =>
    intro acc res hacc hok
    cases hok
    exact hacc
  | cons rt rts ih =>
    intro acc res hacc hok
    simp only [collectTransitions] at hok
    cases hid : rt.id with
    | none =>
      simp only [hid] at hok
      cases hok
    | some tid =>
      simp only [hid] at hok
      by_cases hk : isKey acc tid
      · rw [if_pos hk] at hok
        cases hok
      · rw [if_neg hk] at hok
        refine ih _ res ?_ hok
        intro q hq
        rcases List.mem_append.mp hq with hmem | hmem
        · exact hacc q hmem
        · rw [List.mem_singleton] at hmem
          rw [hmem]
          exact ⟨rfl, rfl⟩

theorem attachOne_ok {places : List (String × Place)} {ts : List (String × Transition)}
    {aid : String} {arc : Arc} {ps' : List (String × Place)}
    {ts' : List (String × Transition)}
    (h : attachOne places ts aid arc = .ok (ps', ts')) :
    ps'.map Prod.fst = places.map Prod.fst ∧
    (∀ q ∈ ts', q.1 ∈ places.map Prod.fst → q ∈ ts) := by
  unfold attachOne at h
  split at h
  · cases h
  · split at h
    · cases h
    · by_cases hs : isKey places arc.source <;> by_cases ht : isKey places arc.target <;>
        simp only [hs, ht, if_true, if_false, Bool.false_eq_true, if_neg, ite_true,
          ite_false, Except.ok.injEq, Prod.mk.injEq] at h <;>
        obtain ⟨hP, hT⟩ := h
      · rw [← hP, ← hT]
        refine ⟨by rw [updateVal_map_fst, updateVal_map_fst], ?_⟩
        intro q hq _
        exact hq
      · rw [← hP, ← hT]
        refine ⟨by rw [updateVal_map_fst], ?_⟩
        intro q hq hqk
        apply mem_updateVal_ne hq
        intro hc
        rw [hc] at hqk
        exact absurd ((isKey_iff_mem _ _).mpr hqk) (by simp [ht])
      · rw [← hP, ← hT]
        refine ⟨by rw [updateVal_map_fst], ?_⟩
        intro q hq hqk
        apply mem_updateVal_ne hq
        intro hc
        rw [hc] at hqk
        exact absurd ((isKey_iff_mem _ _).mpr hqk) (by simp [hs])
      · rw [← hP, ← hT]
        refine ⟨rfl, ?_⟩
        intro q hq hqk
        have hq1 : q ∈ updateVal ts arc.source
            (fun t => { t with outgoing := t.outgoing ++ [aid] }) := by
          apply mem_updateVal_ne hq
          intro hc
          rw [hc] at hqk
          exact absurd ((isKey_iff_mem _ _).mpr hqk) (by simp [ht])
        apply mem_updateVal_ne hq1
        intro hc
        rw [hc] at hqk
        exact absurd ((isKey_iff_mem _ _).mpr hqk) (by simp [hs])

theorem attachArcs_shadowed :
    ∀ (arcs : List (String × Arc)) (places : List (String × Place))
      (ts : List (String × Transition)) (ps' : List (String × Place))
      (ts' : List (String × Transition)),
    attachArcs places ts arcs = .ok (ps', ts') →
    ps'.map Prod.fst = places.map Prod.fst ∧
    (∀ q ∈ ts', q.1 ∈ places.map Prod.fst → q ∈ ts) := by
  intro arcs
  induction arcs with
  | nil =>
    intro places ts ps' ts' h
    cases h
    exact ⟨rfl, fun q hq _ => hq⟩
  | cons pa arcs ih =>
    intro places ts ps' ts' h
    obtain ⟨aid, arc⟩ := pa
    simp only [attachArcs] at h
    cases ha : attachOne places ts aid arc with
    | error e =>
      rw [ha] at h
      cases h
    | ok pt =>
      obtain ⟨ps1, ts1⟩ := pt
      rw [ha] at h
      obtain ⟨hmap1, hmem1⟩ := attachOne_ok ha
      obtain ⟨hmap2, hmem2⟩ := ih ps1 ts1 ps' ts' h
      constructor
      · rw [hmap2, hmap1]
      · intro q hq hqk
        have hq1 : q ∈ ts1 := hmem2 q hq (by rw [hmap1]; exact hqk)
        exact hmem1 q hq1 hqk

/-! Facts about the validation passes. -/

theorem checkIsolated_ok_iff {places : List (String × Place)}
    {ts : List (String × Transition)} :
    checkIsolated places ts = .ok () ↔ isolatedOf places ts = [] := by
  unfold checkIsolated
  by_cases h : isolatedOf places ts = []
  · rw [if_pos h]
    simp [h]
  · rw [if_neg h]
    simp [h]

theorem mem_isolatedOf_trans {places : List (String × Place)}
    {ts : List (String × Transition)} {tid : String} {t : Transition}
    (hq : (tid, t) ∈ ts) (hin : t.incoming = []) (hout : t.outgoing = []) :
    ("transition", tid) ∈ isolatedOf places ts := by
  unfold isolatedOf
  apply List.mem_append.mpr
  right
  apply List.mem_filterMap.mpr
  exact ⟨(tid, t), hq, by rw [if_pos ⟨hin, hout⟩]⟩

theorem mem_badMarkings {places : List (String × Place)} {pid : String} {v : Int} :
    (pid, v) ∈ badMarkings places ↔
      ∃ p, (pid, p) ∈ places ∧ p.initial_marking = v ∧ v ≠ 0 ∧ v ≠ 1 := by
  unfold badMarkings
  rw [List.mem_filterMap]
  constructor
  · rintro ⟨q, hq, hsome⟩
    obtain ⟨qk, qv⟩ := q
    by_cases hcond : qv.initial_marking ≠ 0 ∧ qv.initial_marking ≠ 1
    · rw [if_pos hcond] at hsome
      have h1 := Option.some_injective _ hsome
      have hk : qk = pid := congrArg Prod.fst h1
      have hv : qv.initial_marking = v := congrArg Prod.snd h1
      subst hk
      exact ⟨qv, hq, hv, hv ▸ hcond.1, hv ▸ hcond.2⟩
    · rw [if_neg hcond] at hsome
      cases hsome
  · rintro ⟨p, hp, hv, h0, h1⟩
    refine ⟨(pid, p), hp, ?_⟩
    rw [if_pos ⟨by rw [hv]; exact h0, by rw [hv]; exact h1⟩, hv]

theorem mem_heavyArcs {arcs : List (String × Arc)} {aid : String} :
    aid ∈ heavyArcs arcs ↔ ∃ a, (aid, a) ∈ arcs ∧ a.weight ≠ 1 := by
  unfold heavyArcs
  rw [List.mem_filterMap]
  constructor
  · rintro ⟨q, hq, hsome⟩
    obtain ⟨qk, qv⟩ := q
    by_cases hcond : qv.weight ≠ 1
    · rw [if_pos hcond] at hsome
      have h1 : qk = aid := Option.some_injective _ hsome
      exact ⟨qv, h1 ▸ hq, hcond⟩
    · rw [if_neg hcond] at hsome
      cases hsome
  · rintro ⟨a, ha, hw⟩
    exact ⟨(aid, a), ha, by rw [if_pos hw]⟩

theorem mem_isolatedOf {places : List (String × Place)} {ts : List (String × Transition)}
    {kind nid : String} :
    (kind, nid) ∈ isolatedOf places ts ↔
      ((kind = "place" ∧ ∃ p, (nid, p) ∈ places ∧ p.incoming = [] ∧ p.outgoing = []) ∨
       (kind = "transition" ∧ ∃ t, (nid, t) ∈ ts ∧ t.incoming = [] ∧ t.outgoing = [])) := by
  unfold isolatedOf
  rw [List.mem_append, List.mem_filterMap, List.mem_filterMap]
  constructor
  · rintro (⟨q, hq, hsome⟩ | ⟨q, hq, hsome⟩)
    · obtain ⟨qk, qv⟩ := q
      by_cases hcond : qv.incoming = [] ∧ qv.outgoing = []
      · rw [if_pos hcond] at hsome
        have h1 := Option.some_injective _ hsome
        have hk : "place" = kind := congrArg Prod.fst h1
        have hn : qk = nid := congrArg Prod.snd h1
        left
        exact ⟨hk.symm, qv, hn ▸ hq, hcond.1, hcond.2⟩
      · rw [if_neg hcond] at hsome
        cases hsome
    · obtain ⟨qk, qv⟩ := q
      by_cases hcond : qv.incoming = [] ∧ qv.outgoing = []
      · rw [if_pos hcond] at hsome
        have h1 := Option.some_injective _ hsome
        have hk : "transition" = kind := congrArg Prod.fst h1
        have hn : qk = nid := congrArg Prod.snd h1
        right
        exact ⟨hk.symm, qv, hn ▸ hq, hcond.1, hcond.2⟩
      · rw [if_neg hcond] at hsome
        cases hsome
  · rintro (⟨hk, p, hp, h1, h2⟩ | ⟨hk, t, ht, h1, h2⟩)
    · left
      exact ⟨(nid, p), hp, by rw [if_pos ⟨h1, h2⟩, hk]⟩
    · right
      exact ⟨(nid, t), ht, by rw [if_pos ⟨h1, h2⟩, hk]⟩

theorem checkIsolated_error_iff {places : List (String × Place)}
    {ts : List (String × Transition)} :
    (∃ e, checkIsolated places ts = .error e) ↔ isolatedOf places ts ≠ [] := by
  unfold checkIsolated
  by_cases h : isolatedOf places ts = []
  · rw [if_pos h]
    simp [h]
  · rw [if_neg h]
    simp [h]

theorem checkIsolated_error_val {places : List (String × Place)}
    {ts : List (String × Transition)} {e : ParseError}
    (h : checkIsolated places ts = .error e) :
    e = .isolatedNodes (isolatedOf places ts) := by
  unfold checkIsolated at h
  by_cases hc : isolatedOf places ts = []
  · rw [if_pos hc] at h
    cases h
  · rw [if_neg hc] at h
    exact (Except.error.inj h).symm

theorem collectArcs_no_late_nonpos :
    ∀ (ras : List RawArc) (acc : List (String × Arc)) (aid : String) (w : Int),
    aid ∈ acc.map Prod.fst →
    collectArcs ras acc ≠ .error (.nonPositiveWeight aid w) := by
  intro ras
  induction ras with
  | nil =>
    intro acc aid w hmem h
    cases h
  | cons ra ras ih =>
    intro acc aid w hmem h
    simp only [collectArcs] at h
    cases hid : ra.id with
    | none =>
      simp only [hid] at h
      cases h
    | some aid2 =>
      simp only [hid] at h
      by_cases hk : isKey acc aid2
      · rw [if_pos hk] at h
        cases h
      · rw [if_neg hk] at h
        cases hsrc : ra.source with
        | none =>
          simp only [hsrc] at h
          cases h
        | some s =>
          simp only [hsrc] at h
          cases htgt : ra.target with
          | none =>
            simp only [htgt] at h
            cases h
          | some t =>
            simp only [htgt] at h
            by_cases hw : parseInteger ra.weight_text 1 ≤ 0
            · rw [if_pos hw] at h
              have h2 := Except.error.inj h
              injection h2 with h3 h4
              rw [h3] at hk
              exact hk ((isKey_iff_mem _ _).mpr hmem)
            · rw [if_neg hw] at h
              refine ih _ aid w ?_ h
              rw [List.map_append]
              exact List.mem_append.mpr (Or.inl hmem)

theorem parseInteger_nonpos_iff (wt : Option String) :
    parseInteger wt 1 ≤ 0 ↔
      ∃ str n, wt = some str ∧ toIntStr (trimChars str.data) = some n ∧ n ≤ 0 := by
  cases wt with
  | none =>
    simp only [parseInteger]
    constructor
    · intro h
      exact absurd h (by norm_num)
    · rintro ⟨str, n, hc, _⟩
      cases hc
  | some str =>
    simp only [parseInteger]
    cases hti : toIntStr (trimChars str.data) with
    | none =>
      constructor
      · intro h
        exact absurd h (by norm_num)
      · rintro ⟨str2, n, hs, ht2, hn⟩
        have : str2 = str := (Option.some_injective _ hs).symm
        rw [this] at ht2
        rw [hti] at ht2
        cases ht2
    | some n =>
      constructor
      · intro h
        exact ⟨str, n, rfl, hti, h⟩
      · rintro ⟨str2, n2, hs, ht2, hn⟩
        have he : str2 = str := (Option.some_injective _ hs).symm
        rw [he, hti] at ht2
        have : n2 = n := (Option.some_injective _ ht2).symm
        rw [← this]
        exact hn

/-! Claim theorems. -/

/-- C1: at any marking `M` processed by the exploration, a successor via
transition `tid` is generated exactly when `pre[tid] ⊆ M` (the transition
is enabled); that successor is `(M \ pre[tid]) ∪ post[tid]`; and every
place lying in both the preset and the postset of `tid` is still marked
in the successor. -/
theorem fire_rule_correct (net : PetriNet) (M : Finset String) (tid : String)
    (ht : tid ∈ net.transitions.map Prod.fst) :
    (∀ X, ((tid, X) ∈ firedSuccs (preT net) (postT net) (sortedTids net) M ↔
      (preT net tid ⊆ M ∧ X = (M \ preT net tid) ∪ postT net tid)))
    ∧ ∀ p ∈ preT net tid ∩ postT net tid,
        p ∈ (M \ preT net tid) ∪ postT net tid := by
  constructor
  · intro X
    rw [mem_firedSuccs]
    constructor
    · rintro ⟨_, h2, h3⟩
      exact ⟨h2, h3⟩
    · rintro ⟨h2, h3⟩
      exact ⟨(mem_sortedTids net tid).mpr ht, h2, h3⟩
  · intro p hp
    exact Finset.mem_union_right _ (Finset.mem_inter.mp hp).2

theorem fire_rule_correct_witness :
    ("t1", ({"p2"} : Finset String)) ∈
      firedSuccs (preT netA) (postT netA) (sortedTids netA) {"p1"} := by
  have h := fire_rule_correct netA {"p1"} "t1" (by decide)
  exact (h.1 {"p2"}).mpr ⟨by decide, by decide⟩

/-- C2: for every net, breadth-first (`dfs = false`) and depth-first
(`dfs = true`) exploration return the same set of markings; only the
order of the sequences may differ. -/
theorem bfs_dfs_same_set (net : PetriNet) :
    (compute_reachable_markings net false).toFinset =
      (compute_reachable_markings net true).toFinset := by
  ext X
  rw [List.mem_toFinset, List.mem_toFinset]
  unfold compute_reachable_markings
  rw [explore_mem_reach, explore_mem_reach]

/-- C3: the exploration terminates — the (total, well-founded) loop stops
exactly when the frontier container is empty — and the returned sequence
holds at most `2 ^ |places|` markings; in particular the cyclic
scenario-D net yields the finite sequence `[{p1}, {p2}]` in either
mode. -/
theorem exploration_terminates_bounded (net : PetriNet) (dfs : Bool) :
    (compute_reachable_markings net dfs).length ≤ 2 ^ net.places.length
    ∧ (∀ visited, explore (preT net) (postT net) (sortedTids net) dfs visited [] = [])
    ∧ compute_reachable_markings netD dfs = [{"p1"}, {"p2"}] := by
  refine ⟨?_, ?_, ?_⟩
  · have hnodup := explore_nodup (preT net) (postT net) (sortedTids net) dfs ∅ [M0 net]
    have hsub := explore_subset (preT net) (postT net) (sortedTids net) dfs
      ((net.places.map Prod.fst).toFinset) (fun tid _ => postT_subset net tid) ∅ [M0 net]
      (by
        intro m hm
        rw [List.mem_singleton] at hm
        rw [hm]
        exact M0_subset net)
    unfold compute_reachable_markings
    calc (explore (preT net) (postT net) (sortedTids net) dfs ∅ [M0 net]).length
        = (explore (preT net) (postT net) (sortedTids net) dfs ∅ [M0 net]).toFinset.card :=
          (List.toFinset_card_of_nodup hnodup).symm
      _ ≤ ((net.places.map Prod.fst).toFinset.powerset).card := by
          apply Finset.card_le_card
          intro X hX
          rw [List.mem_toFinset] at hX
          rw [Finset.mem_powerset]
          exact hsub X hX
      _ = 2 ^ (net.places.map Prod.fst).toFinset.card := Finset.card_powerset _
      _ ≤ 2 ^ net.places.length := by
          apply Nat.pow_le_pow_right (by norm_num)
          calc (net.places.map Prod.fst).toFinset.card
              ≤ (net.places.map Prod.fst).length := List.toFinset_card_le _
            _ = net.places.length := List.length_map _ _
  · intro visited
    exact explore_none (popNext_nil dfs)
  · cases dfs with
    | false => exact computeD_bfs
    | true => exact computeD_dfs

/-- C4: every marking appears in the output exactly once, appended at the
moment it is popped unvisited; pops of already-visited markings are
discarded without output; transitions are tried in ascending
lexicographic id order; and (the function being pure) the sequence is
uniquely determined by net and mode. -/
theorem discovery_sequence_contract (net : PetriNet) (dfs : Bool) :
    (compute_reachable_markings net dfs).Nodup
    ∧ List.Sorted (fun a b => strLe a b = true) (sortedTids net)
    ∧ (sortedTids net).Perm (net.transitions.map Prod.fst)
    ∧ (∀ visited container M rest, popNext dfs container = some (M, rest) →
        M ∈ visited →
        explore (preT net) (postT net) (sortedTids net) dfs visited container =
          explore (preT net) (postT net) (sortedTids net) dfs visited rest)
    ∧ (∀ visited container M rest, popNext dfs container = some (M, rest) →
        M ∉ visited →
        explore (preT net) (postT net) (sortedTids net) dfs visited container =
          M :: explore (preT net) (postT net) (sortedTids net) dfs (insert M visited)
            (rest ++ pushedSuccs (preT net) (postT net) (sortedTids net)
              (insert M visited) M)) := by
  refine ⟨explore_nodup _ _ _ _ _ _, sortedTids_sorted net, sortedTids_perm net, ?_, ?_⟩
  · intro visited container M rest hp hM
    exact explore_pop_visited hp hM
  · intro visited container M rest hp hM
    exact explore_pop_new hp hM

theorem discovery_sequence_contract_witness :
    (compute_reachable_markings netA false).Nodup
    ∧ explore (preT netA) (postT netA) (sortedTids netA) false
        ({{"p1"}} : Finset (Finset String)) [{"p1"}] =
        explore (preT netA) (postT netA) (sortedTids netA) false
          ({{"p1"}} : Finset (Finset String)) []
    ∧ explore (preT netA) (postT netA) (sortedTids netA) false ∅ [{"p1"}] =
        {"p1"} :: explore (preT netA) (postT netA) (sortedTids netA) false
          (insert {"p1"} ∅)
          ([] ++ pushedSuccs (preT netA) (postT netA) (sortedTids netA)
            (insert {"p1"} ∅) {"p1"}) := by
  have h := discovery_sequence_contract netA false
  exact ⟨h.1,
    h.2.2.2.1 ({{"p1"}} : Finset (Finset String)) [{"p1"}] {"p1"} [] (by decide) (by decide),
    h.2.2.2.2 ∅ [{"p1"}] {"p1"} [] (by decide) (by decide)⟩

/-- C9: every marking in the returned sequence — the initial marking and
every marking obtained by firing — contains only ids of places that exist
in the net's place map. -/
theorem markings_only_place_ids (net : PetriNet) (dfs : Bool) (X : Finset String)
    (hX : X ∈ compute_reachable_markings net dfs) :
    ∀ p ∈ X, p ∈ net.places.map Prod.fst := by
  have hsub := explore_subset (preT net) (postT net) (sortedTids net) dfs
    ((net.places.map Prod.fst).toFinset) (fun tid _ => postT_subset net tid) ∅ [M0 net]
    (by
      intro m hm
      rw [List.mem_singleton] at hm
      rw [hm]
      exact M0_subset net)
  intro p hp
  have hXsub := hsub X hX
  have := hXsub hp
  rwa [List.mem_toFinset] at this

theorem markings_only_place_ids_witness :
    "p1" ∈ netA.places.map Prod.fst := by
  have h := markings_only_place_ids netA false {"p1"}
    (by rw [computeA_bfs]; decide)
  exact h "p1" (by decide)

/-- C5 counterexample: an input in which the one id `x` names both a
place and a transition is rejected, but with the aggregated
isolated-node error (the shadowed transition never acquires arcs), not
with any duplicate-id error. -/
theorem shared_id_rejected_as_isolated :
    parsePNML rawShared true = .error (.isolatedNodes [("transition", "x")])
    ∧ isDupIdError (parsePNML rawShared true) = false := by
  constructor
  · decide
  · decide

/-- C5 (amended): in every `PetriNet` returned by `parsePNML`, every
transition id is distinct from every place id; an input in which one id
names both a place and a transition is rejected, but by the
isolated-node check rather than as a duplicate-id failure. -/
theorem returned_net_ids_disjoint (raw : RawNet) (rq : Bool) (net : PetriNet)
    (h : parsePNML raw rq = .ok net) :
    ∀ x ∈ net.transitions.map Prod.fst, x ∉ net.places.map Prod.fst := by
  unfold parsePNML at h
  cases h1 : collectPlaces raw.places [] with
  | error e =>
    simp only [h1, Except.bind] at h
    cases h
  | ok places0 =>
  simp only [h1, Except.bind] at h
  cases h2 : collectTransitions raw.transitions [] with
  | error e =>
    simp only [h2, Except.bind] at h
    cases h
  | ok ts0 =>
  simp only [h2, Except.bind] at h
  cases h3 : collectArcs raw.arcs [] with
  | error e =>
    simp only [h3, Except.bind] at h
    cases h
  | ok arcs0 =>
  simp only [h3, Except.bind] at h
  cases h4 : attachArcs places0 ts0 arcs0 with
  | error e =>
    simp only [h4, Except.bind] at h
    cases h
  | ok pt =>
  obtain ⟨ps1, ts1⟩ := pt
  simp only [h4, Except.bind] at h
  cases h5 : checkIsolated ps1 ts1 with
  | error e =>
    simp only [h5, Except.bind] at h
    cases h
  | ok u =>
  cases u
  simp only [h5, Except.bind] at h
  cases h6 : check1safe rq ps1 arcs0 with
  | error e =>
    simp only [h6, Except.bind] at h
    cases h
  | ok u2 =>
  cases u2
  simp only [h6, Except.bind] at h
  cases h
  intro x hx hpx
  simp only [] at hx hpx
  obtain ⟨q, hq, hq1⟩ := List.mem_map.mp hx
  obtain ⟨hmapf, hshadow⟩ := attachArcs_shadowed arcs0 places0 ts0 ps1 ts1 h4
  have hx0 : x ∈ places0.map Prod.fst := by
    rw [← hmapf]
    exact hpx
  have hq0 : q ∈ ts0 := hshadow q hq (by rw [hq1]; exact hx0)
  have hempty := collectTransitions_empty_lists raw.transitions [] ts0
    (by intro q2 hq2; cases hq2) h2 q hq0
  obtain ⟨qk, qv⟩ := q
  have hiso := @mem_isolatedOf_trans ps1 ts1 qk qv hq hempty.1 hempty.2
  rw [checkIsolated_ok_iff] at h5
  rw [h5] at hiso
  cases hiso

theorem returned_net_ids_disjoint_witness :
    "t1" ∉ netA.places.map Prod.fst := by
  have h := returned_net_ids_disjoint rawA true netA (by decide)
  exact h "t1" (by decide)

/-- C6: with 1-safe validation enabled the two aggregate checks run in
sequence: when any place's initial marking lies outside {0,1} the result
is a single `nonBinaryMarkings` error naming every offending place with
its value — whatever the arcs are, so the weight check never runs; only
when no such place exists and some arc weight differs from 1 does the
pass fail, with a single `nonUnitWeights` error naming all offenders. -/
theorem safety_checks_sequential (places : List (String × Place))
    (arcs : List (String × Arc)) :
    (badMarkings places ≠ [] →
      check1safe true places arcs = .error (.nonBinaryMarkings (badMarkings places)))
    ∧ (∀ pid v, (pid, v) ∈ badMarkings places ↔
        ∃ p, (pid, p) ∈ places ∧ p.initial_marking = v ∧ v ≠ 0 ∧ v ≠ 1)
    ∧ (badMarkings places = [] → heavyArcs arcs ≠ [] →
        check1safe true places arcs = .error (.nonUnitWeights (heavyArcs arcs)))
    ∧ (∀ aid, aid ∈ heavyArcs arcs ↔ ∃ a, (aid, a) ∈ arcs ∧ a.weight ≠ 1) := by
  have hred : check1safe true places arcs =
      (if badMarkings places ≠ [] then
        Except.error (.nonBinaryMarkings (badMarkings places))
      else if heavyArcs arcs ≠ [] then
        Except.error (.nonUnitWeights (heavyArcs arcs))
      else Except.ok ()) := rfl
  refine ⟨?_, fun pid v => mem_badMarkings, ?_, fun aid => mem_heavyArcs⟩
  · intro hbad
    rw [hred, if_pos hbad]
  · intro hgood hheavy
    rw [hred, if_neg (fun hc => hc hgood), if_pos hheavy]

theorem safety_checks_sequential_witness :
    check1safe true [("p1", { id := "p1", initial_marking := 2 })]
        [("a1", { id := "a1", source := "p1", target := "t1", weight := 5 })] =
      .error (.nonBinaryMarkings [("p1", 2)])
    ∧ ("p1", (2 : Int)) ∈ badMarkings [("p1", { id := "p1", initial_marking := 2 })] := by
  have h := safety_checks_sequential
    [("p1", { id := "p1", initial_marking := 2 })]
    [("a1", { id := "a1", source := "p1", target := "t1", weight := 5 })]
  constructor
  · rw [h.1 (by decide)]
    decide
  · exact (h.2.1 "p1" 2).mpr
      ⟨{ id := "p1", initial_marking := 2 }, by decide, rfl, by decide, by decide⟩

/-- C7: the isolated-node validation fails exactly when some place or
transition has both an empty incoming and an empty outgoing list; any
failure is the single aggregated `isolatedNodes` error; and the reported
list names exactly the isolated nodes, each tagged with its kind. -/
theorem isolated_check_characterization (places : List (String × Place))
    (ts : List (String × Transition)) :
    ((∃ e, checkIsolated places ts = .error e) ↔
      ((∃ q ∈ places, q.2.incoming = [] ∧ q.2.outgoing = []) ∨
       (∃ q ∈ ts, q.2.incoming = [] ∧ q.2.outgoing = [])))
    ∧ (∀ e, checkIsolated places ts = .error e →
        e = .isolatedNodes (isolatedOf places ts))
    ∧ (∀ kind nid, (kind, nid) ∈ isolatedOf places ts ↔
        ((kind = "place" ∧ ∃ p, (nid, p) ∈ places ∧ p.incoming = [] ∧ p.outgoing = []) ∨
         (kind = "transition" ∧
          ∃ t, (nid, t) ∈ ts ∧ t.incoming = [] ∧ t.outgoing = []))) := by
  refine ⟨?_, fun e => checkIsolated_error_val, fun kind nid => mem_isolatedOf⟩
  rw [checkIsolated_error_iff]
  constructor
  · intro hne
    cases hiso : isolatedOf places ts with
    | nil => exact absurd hiso hne
    | cons q rest =>
      have hq : q ∈ isolatedOf places ts := by
        rw [hiso]
        exact List.mem_cons_self _ _
      obtain ⟨qk, qn⟩ := q
      rcases mem_isolatedOf.mp hq with ⟨_, p, hp, hi1, hi2⟩ | ⟨_, t, ht2, hi1, hi2⟩
      · exact Or.inl ⟨(qn, p), hp, hi1, hi2⟩
      · exact Or.inr ⟨(qn, t), ht2, hi1, hi2⟩
  · rintro (⟨q, hq, hi1, hi2⟩ | ⟨q, hq, hi1, hi2⟩) hiso
    · have hmem : ("place", q.1) ∈ isolatedOf places ts := by
        rw [mem_isolatedOf]
        exact Or.inl ⟨rfl, q.2, hq, hi1, hi2⟩
      rw [hiso] at hmem
      cases hmem
    · have hmem : ("transition", q.1) ∈ isolatedOf places ts :=
        mem_isolatedOf_trans hq hi1 hi2
      rw [hiso] at hmem
      cases hmem

theorem isolated_check_characterization_witness :
    checkIsolated [("p1", { id := "p1" })] ([] : List (String × Transition)) =
      .error (.isolatedNodes [("place", "p1")])
    ∧ ("place", "p1") ∈ isolatedOf [("p1", { id := "p1" })] [] := by
  have h := isolated_check_characterization [("p1", { id := "p1" })] []
  have h2 := h.2.1 (.isolatedNodes [("place", "p1")]) (by decide)
  exact ⟨by decide,
    (h.2.2 "place" "p1").mpr (Or.inl ⟨rfl, { id := "p1" }, by decide, rfl, rfl⟩)⟩

theorem collectArcs_cons_step (aid s t : String) (wt : Option String)
    (rest : List RawArc) (acc : List (String × Arc))
    (hkey : isKey acc aid = false) :
    collectArcs ({ id := some aid, source := some s, target := some t, weight_text := wt } :: rest) acc =
      (if parseInteger wt 1 ≤ 0 then
        .error (.nonPositiveWeight aid (parseInteger wt 1))
      else collectArcs rest
        (acc ++ [(aid, { id := aid, source := s, target := t, weight := parseInteger wt 1 })])) := by
  simp only [collectArcs]
  rw [hkey]
  rw [if_neg (by simp)]

/-- C8: numeric text parsing is permissive and never a failure — absent
or unparsable text yields the default (0 for an initial marking, 1 for a
weight), parsable text yields its value — and the arc pass raises
`nonPositiveWeight` exactly when the inscription text parses successfully
to an integer ≤ 0. -/
theorem permissive_numeric_parsing :
    (∀ d : Int, parseInteger none d = d)
    ∧ (∀ (s : String) (d : Int), toIntStr (trimChars s.data) = none →
        parseInteger (some s) d = d)
    ∧ (∀ (s : String) (d n : Int), toIntStr (trimChars s.data) = some n →
        parseInteger (some s) d = n)
    ∧ (∀ (aid s t : String) (wt : Option String) (rest : List RawArc)
        (acc : List (String × Arc)), aid ∉ acc.map Prod.fst →
        ((∃ w, collectArcs
            ({ id := some aid, source := some s, target := some t, weight_text := wt } :: rest) acc
          = .error (.nonPositiveWeight aid w)) ↔
         ∃ str n, wt = some str ∧ toIntStr (trimChars str.data) = some n ∧ n ≤ 0)) := by
  refine ⟨fun d => rfl, ?_, ?_, ?_⟩
  · intro s d hnone
    simp only [parseInteger, hnone]
  · intro s d n hsome
    simp only [parseInteger, hsome]
  · intro aid s t wt rest acc hnot
    have hkey : isKey acc aid = false := by
      cases hk : isKey acc aid with
      | false => rfl
      | true => exact absurd ((isKey_iff_mem _ _).mp hk) hnot
    rw [← parseInteger_nonpos_iff]
    constructor
    · rintro ⟨w, hw⟩
      by_cases hcond : parseInteger wt 1 ≤ 0
      · exact hcond
      · exfalso
        rw [collectArcs_cons_step aid s t wt rest acc hkey, if_neg hcond] at hw
        refine collectArcs_no_late_nonpos rest _ aid w ?_ hw
        rw [List.map_append]
        exact List.mem_append.mpr (Or.inr (by simp))
    · intro hcond
      refine ⟨parseInteger wt 1, ?_⟩
      rw [collectArcs_cons_step aid s t wt rest acc hkey, if_pos hcond]

theorem permissive_numeric_parsing_witness :
    parseInteger none (0 : Int) = 0
    ∧ parseInteger (some "x7") 0 = 0
    ∧ parseInteger (some " -3 ") 1 = -3
    ∧ collectArcs [{ id := some "a1", source := some "p1", target := some "t1", weight_text := some "0" }] [] =
        .error (.nonPositiveWeight "a1" 0) := by
  have h := permissive_numeric_parsing
  exact ⟨h.1 0, h.2.1 "x7" 0 (by decide), h.2.2.1 " -3 " 1 (-3) (by decide), by decide⟩

/-! Lookup and update interaction lemmas for C10. -/

theorem lookupA_mem {α : Type} {l : List (String × α)} {k : String} {a : α}
    (h : lookupA l k = some a) : (k, a) ∈ l := by
  unfold lookupA at h
  cases hf : l.find? (fun q => q.1 == k) with
  | none =>
    rw [hf] at h
    cases h
  | some q =>
    rw [hf] at h
    have hq := List.mem_of_find?_eq_some hf
    have hbeq := List.find?_some hf
    have h1 : q.1 = k := eq_of_beq hbeq
    have h2 : q.2 = a := Option.some_injective _ h
    have hqa : q = (k, a) := Prod.ext h1 h2
    rw [← hqa]
    exact hq

theorem lookupA_append_ne {α : Type} (l : List (String × α)) (aid k : String) (a : α)
    (hne : k ≠ aid) : lookupA (l ++ [(aid, a)]) k = lookupA l k := by
  unfold lookupA
  rw [List.find?_append]
  cases hf : l.find? (fun q => q.1 == k) with
  | some q => rfl
  | none =>
    have hba : (aid == k) = false := by
      rw [beq_eq_false_iff_ne]
      exact fun hc => hne hc.symm
    simp [List.find?, hba, Option.or]

theorem lookupA_append_fresh {α : Type} (l : List (String × α)) (aid : String) (a : α)
    (hfresh : isKey l aid = false) : lookupA (l ++ [(aid, a)]) aid = some a := by
  unfold lookupA
  rw [List.find?_append]
  have hf : l.find? (fun q => q.1 == aid) = none := by
    rw [List.find?_eq_none]
    intro q hq hbeq
    have hk : isKey l aid = true :=
      (isKey_iff_mem _ _).mpr (List.mem_map.mpr ⟨q, hq, eq_of_beq hbeq⟩)
    rw [hfresh] at hk
    cases hk
  rw [hf]
  simp [List.find?, Option.or]

theorem lookupA_cons {α : Type} (qk : String) (qv : α) (l : List (String × α))
    (k : String) :
    lookupA ((qk, qv) :: l) k = if qk = k then some qv else lookupA l k := by
  unfold lookupA
  by_cases h : qk = k
  · have hpos : ((fun (q : String × α) => q.1 == k) (qk, qv)) = true := by
      rw [beq_iff_eq]
      exact h
    rw [@List.find?_cons_of_pos _ (fun (q : String × α) => q.1 == k) (qk, qv) l hpos,
      if_pos h]
    rfl
  · have hneg : ¬ (((fun (q : String × α) => q.1 == k) (qk, qv)) = true) :=
      fun hb => h (eq_of_beq hb)
    rw [@List.find?_cons_of_neg _ (fun (q : String × α) => q.1 == k) (qk, qv) l hneg,
      if_neg h]

theorem updateVal_cons {α : Type} (qk : String) (qv : α) (l : List (String × α))
    (k : String) (f : α → α) :
    updateVal ((qk, qv) :: l) k f =
      (if qk = k then (qk, f qv) else (qk, qv)) :: updateVal l k f := by
  unfold updateVal
  simp only [List.map_cons]
  by_cases h : qk = k
  · rw [if_pos (by rw [beq_iff_eq]; exact h), if_pos h]
  · rw [if_neg (fun hb => h (eq_of_beq hb)), if_neg h]

theorem lookupA_updateVal {α : Type} (l : List (String × α)) (k k2 : String)
    (f : α → α) :
    lookupA (updateVal l k f) k2 =
      if k2 = k then (lookupA l k2).map f else lookupA l k2 := by
  induction l with
  | nil =>
    by_cases h : k2 = k <;> simp [updateVal, lookupA, List.find?, h]
  | cons q l ih =>
    obtain ⟨qk, qv⟩ := q
    rw [updateVal_cons]
    by_cases h1 : qk = k
    · rw [if_pos h1, lookupA_cons qk (f qv) (updateVal l k f) k2,
        lookupA_cons qk qv l k2, ih]
      by_cases h2 : qk = k2
      · have h3 : k2 = k := by rw [← h2]; exact h1
        rw [if_pos h2, if_pos h3, if_pos h2]
        rfl
      · rw [if_neg h2, if_neg h2]
    · rw [if_neg h1, lookupA_cons qk qv (updateVal l k f) k2,
        lookupA_cons qk qv l k2, ih]
      by_cases h2 : qk = k2
      · by_cases h3 : k2 = k
        · exact absurd (h2.trans h3) h1
        · rw [if_pos h2, if_neg h3, if_pos h2]
      · rw [if_neg h2, if_neg h2]

theorem isKey_updateVal {α : Type} (l : List (String × α)) (k k2 : String) (f : α → α) :
    isKey (updateVal l k f) k2 = isKey l k2 := by
  cases h : isKey l k2 with
  | true =>
    rw [isKey_iff_mem] at h ⊢
    rwa [updateVal_map_fst]
  | false =>
    cases h2 : isKey (updateVal l k f) k2 with
    | false => rfl
    | true =>
      rw [isKey_iff_mem, updateVal_map_fst, ← isKey_iff_mem] at h2
      rw [h] at h2
      cases h2

theorem filter_pos_map_fst_updateVal (l : List (String × Place)) (k : String)
    (f : Place → Place) (hf : ∀ p, (f p).initial_marking = p.initial_marking) :
    ((updateVal l k f).filter (fun q => 0 < q.2.initial_marking)).map Prod.fst =
      (l.filter (fun q => 0 < q.2.initial_marking)).map Prod.fst := by
  induction l with
  | nil => rfl
  | cons q l ih =>
    obtain ⟨qk, qv⟩ := q
    rw [updateVal_cons]
    by_cases h1 : qk = k
    · rw [if_pos h1]
      simp only [List.filter_cons, hf]
      cases hm : decide (0 < qv.initial_marking) with
      | true => simp [ih]
      | false => simp [ih]
    · rw [if_neg h1]
      simp only [List.filter_cons]
      cases hm : decide (0 < qv.initial_marking) with
      | true => simp [ih]
      | false => simp [ih]

theorem presetOf_ext (net N : PetriNet) (aid : String) (arc : Arc)
    (harcs : N.arcs = net.arcs ++ [(aid, arc)])
    (hfresh : isKey net.arcs aid = false)
    (hpl : ∀ x, isKey N.places x = isKey net.places x)
    (t t2 : Transition)
    (hinc : t2.incoming = t.incoming ∨ t2.incoming = t.incoming ++ [aid])
    (hskip : t2.incoming = t.incoming ++ [aid] → isKey net.places arc.source = false)
    (hnotin : aid ∉ t.incoming) :
    presetOf N t2 = presetOf net t := by
  unfold presetOf
  have hcong : ∀ aid2 ∈ t.incoming,
      (fun aid2 => (match lookupA N.arcs aid2 with
       | some a => if isKey N.places a.source then some a.source else none
       | none => none)) aid2 =
      (fun aid2 => (match lookupA net.arcs aid2 with
       | some a => if isKey net.places a.source then some a.source else none
       | none => none)) aid2 := by
    intro aid2 ha
    have hne : aid2 ≠ aid := fun hc => hnotin (hc ▸ ha)
    simp only []
    rw [harcs, lookupA_append_ne _ _ _ _ hne]
    cases hl : lookupA net.arcs aid2 with
    | none => rfl
    | some a =>
      simp only []
      rw [hpl a.source]
  rcases hinc with h | h <;> rw [h]
  · exact congrArg List.toFinset (List.filterMap_congr hcong)
  · have hfa : lookupA N.arcs aid = some arc := by
      rw [harcs]
      exact lookupA_append_fresh _ _ _ hfresh
    rw [List.filterMap_append]
    have hlast : List.filterMap (fun aid2 => (match lookupA N.arcs aid2 with
        | some a => if isKey N.places a.source then some a.source else none
        | none => none)) [aid] = [] := by
      simp only [List.filterMap_cons, List.filterMap_nil, hfa]
      rw [hpl arc.source, hskip h]
      simp
    rw [hlast, List.append_nil]
    exact congrArg List.toFinset (List.filterMap_congr hcong)

theorem postsetOf_ext (net N : PetriNet) (aid : String) (arc : Arc)
    (harcs : N.arcs = net.arcs ++ [(aid, arc)])
    (hfresh : isKey net.arcs aid = false)
    (hpl : ∀ x, isKey N.places x = isKey net.places x)
    (t t2 : Transition)
    (hout : t2.outgoing = t.outgoing ∨ t2.outgoing = t.outgoing ++ [aid])
    (hskip : t2.outgoing = t.outgoing ++ [aid] → isKey net.places arc.target = false)
    (hnotin : aid ∉ t.outgoing) :
    postsetOf N t2 = postsetOf net t := by
  unfold postsetOf
  have hcong : ∀ aid2 ∈ t.outgoing,
      (fun aid2 => (match lookupA N.arcs aid2 with
       | some a => if isKey N.places a.target then some a.target else none
       | none => none)) aid2 =
      (fun aid2 => (match lookupA net.arcs aid2 with
       | some a => if isKey net.places a.target then some a.target else none
       | none => none)) aid2 := by
    intro aid2 ha
    have hne : aid2 ≠ aid := fun hc => hnotin (hc ▸ ha)
    simp only []
    rw [harcs, lookupA_append_ne _ _ _ _ hne]
    cases hl : lookupA net.arcs aid2 with
    | none => rfl
    | some a =>
      simp only []
      rw [hpl a.target]
  rcases hout with h | h <;> rw [h]
  · exact congrArg List.toFinset (List.filterMap_congr hcong)
  · have hfa : lookupA N.arcs aid = some arc := by
      rw [harcs]
      exact lookupA_append_fresh _ _ _ hfresh
    rw [List.filterMap_append]
    have hlast : List.filterMap (fun aid2 => (match lookupA N.arcs aid2 with
        | some a => if isKey N.places a.target then some a.target else none
        | none => none)) [aid] = [] := by
      simp only [List.filterMap_cons, List.filterMap_nil, hfa]
      rw [hpl arc.target, hskip h]
      simp
    rw [hlast, List.append_nil]
    exact congrArg List.toFinset (List.filterMap_congr hcong)

theorem computeRM_extend (net : PetriNet) (aid : String) (arc : Arc) (dfs : Bool)
    (hfresh : isKey net.arcs aid = false)
    (hnoref : ∀ q ∈ net.transitions, aid ∉ q.2.incoming ∧ aid ∉ q.2.outgoing)
    (hcase : (isKey net.places arc.source = false ∧ isKey net.places arc.target = false) ∨
             (isKey net.places arc.source = true ∧ isKey net.places arc.target = true)) :
    compute_reachable_markings (extendWithArc net aid arc) dfs =
      compute_reachable_markings net dfs := by
  have hA : (extendWithArc net aid arc).arcs = net.arcs ++ [(aid, arc)] := rfl
  rcases hcase with ⟨hs, ht⟩ | ⟨hs, ht⟩
  · -- arc between two non-places: only transition incidence changes
    have hnet2 : extendWithArc net aid arc =
        { id := net.id, places := net.places,
          transitions := updateVal (updateVal net.transitions arc.source
              (fun t => { t with outgoing := t.outgoing ++ [aid] })) arc.target
              (fun t => { t with incoming := t.incoming ++ [aid] }),
          arcs := net.arcs ++ [(aid, arc)] } := by
      simp [extendWithArc, hs, ht]
    have hP : (extendWithArc net aid arc).places = net.places := by rw [hnet2]
    have hT : (extendWithArc net aid arc).transitions =
        updateVal (updateVal net.transitions arc.source
          (fun t => { t with outgoing := t.outgoing ++ [aid] })) arc.target
          (fun t => { t with incoming := t.incoming ++ [aid] }) := by rw [hnet2]
    have hpl : ∀ x, isKey (extendWithArc net aid arc).places x = isKey net.places x := by
      intro x
      rw [hP]
    have hpre : preT (extendWithArc net aid arc) = preT net := by
      funext tid
      unfold preT
      rw [hT, lookupA_updateVal, lookupA_updateVal]
      cases hlook : lookupA net.transitions tid with
      | none =>
        by_cases h1 : tid = arc.target <;> by_cases h2 : tid = arc.source
        · rw [if_pos h1, if_pos h2]
          try rfl
        · rw [if_pos h1, if_neg h2]
          try rfl
        · rw [if_neg h1, if_pos h2]
          try rfl
        · rw [if_neg h1, if_neg h2]
          try rfl
      | some t =>
        have hmem := lookupA_mem hlook
        obtain ⟨hnin, hnout⟩ := hnoref (tid, t) hmem
        by_cases h1 : tid = arc.target <;> by_cases h2 : tid = arc.source
        · rw [if_pos h1, if_pos h2]
          exact presetOf_ext net _ aid arc hA hfresh hpl t _ (Or.inr rfl)
            (fun _ => hs) hnin
        · rw [if_pos h1, if_neg h2]
          exact presetOf_ext net _ aid arc hA hfresh hpl t _ (Or.inr rfl)
            (fun _ => hs) hnin
        · rw [if_neg h1, if_pos h2]
          exact presetOf_ext net _ aid arc hA hfresh hpl t _ (Or.inl rfl)
            (fun hh => absurd hh (by simp)) hnin
        · rw [if_neg h1, if_neg h2]
          exact presetOf_ext net _ aid arc hA hfresh hpl t _ (Or.inl rfl)
            (fun hh => absurd hh (by simp)) hnin
    have hpost : postT (extendWithArc net aid arc) = postT net := by
      funext tid
      unfold postT
      rw [hT, lookupA_updateVal, lookupA_updateVal]
      cases hlook : lookupA net.transitions tid with
      | none =>
        by_cases h1 : tid = arc.target <;> by_cases h2 : tid = arc.source
        · rw [if_pos h1, if_pos h2]
          try rfl
        · rw [if_pos h1, if_neg h2]
          try rfl
        · rw [if_neg h1, if_pos h2]
          try rfl
        · rw [if_neg h1, if_neg h2]
          try rfl
      | some t =>
        have hmem := lookupA_mem hlook
        obtain ⟨hnin, hnout⟩ := hnoref (tid, t) hmem
        by_cases h1 : tid = arc.target <;> by_cases h2 : tid = arc.source
        · rw [if_pos h1, if_pos h2]
          exact postsetOf_ext net _ aid arc hA hfresh hpl t _ (Or.inr rfl)
            (fun _ => ht) hnout
        · rw [if_pos h1, if_neg h2]
          exact postsetOf_ext net _ aid arc hA hfresh hpl t _ (Or.inl rfl)
            (fun hh => absurd hh (by simp)) hnout
        · rw [if_neg h1, if_pos h2]
          exact postsetOf_ext net _ aid arc hA hfresh hpl t _ (Or.inr rfl)
            (fun _ => ht) hnout
        · rw [if_neg h1, if_neg h2]
          exact postsetOf_ext net _ aid arc hA hfresh hpl t _ (Or.inl rfl)
            (fun hh => absurd hh (by simp)) hnout
    have htids : sortedTids (extendWithArc net aid arc) = sortedTids net := by
      unfold sortedTids
      rw [hT, updateVal_map_fst, updateVal_map_fst]
    have hM0 : M0 (extendWithArc net aid arc) = M0 net := by
      unfold M0
      rw [hP]
    unfold compute_reachable_markings
    rw [hpre, hpost, htids, hM0]
  · -- arc between two places: only place incidence changes
    have hnet2 : extendWithArc net aid arc =
        { id := net.id,
          places := updateVal (updateVal net.places arc.source
              (fun p => { p with outgoing := p.outgoing ++ [aid] })) arc.target
              (fun p => { p with incoming := p.incoming ++ [aid] }),
          transitions := net.transitions,
          arcs := net.arcs ++ [(aid, arc)] } := by
      simp [extendWithArc, hs, ht]
    have hP : (extendWithArc net aid arc).places =
        updateVal (updateVal net.places arc.source
          (fun p => { p with outgoing := p.outgoing ++ [aid] })) arc.target
          (fun p => { p with incoming := p.incoming ++ [aid] }) := by rw [hnet2]
    have hT : (extendWithArc net aid arc).transitions = net.transitions := by rw [hnet2]
    have hpl : ∀ x, isKey (extendWithArc net aid arc).places x = isKey net.places x := by
      intro x
      rw [hP, isKey_updateVal, isKey_updateVal]
    have hpre : preT (extendWithArc net aid arc) = preT net := by
      funext tid
      unfold preT
      rw [hT]
      cases hlook : lookupA net.transitions tid with
      | none => rfl
      | some t =>
        have hmem := lookupA_mem hlook
        obtain ⟨hnin, hnout⟩ := hnoref (tid, t) hmem
        exact presetOf_ext net _ aid arc hA hfresh hpl t t (Or.inl rfl)
          (fun hh => absurd hh (by simp)) hnin
    have hpost : postT (extendWithArc net aid arc) = postT net := by
      funext tid
      unfold postT
      rw [hT]
      cases hlook : lookupA net.transitions tid with
      | none => rfl
      | some t =>
        have hmem := lookupA_mem hlook
        obtain ⟨hnin, hnout⟩ := hnoref (tid, t) hmem
        exact postsetOf_ext net _ aid arc hA hfresh hpl t t (Or.inl rfl)
          (fun hh => absurd hh (by simp)) hnout
    have htids : sortedTids (extendWithArc net aid arc) = sortedTids net := by
      unfold sortedTids
      rw [hT]
    have hM0 : M0 (extendWithArc net aid arc) = M0 net := by
      unfold M0
      rw [hP,
        filter_pos_map_fst_updateVal _ arc.target
          (fun p => { p with incoming := p.incoming ++ [aid] }) (fun p => rfl),
        filter_pos_map_fst_updateVal _ arc.source
          (fun p => { p with outgoing := p.outgoing ++ [aid] }) (fun p => rfl)]
    unfold compute_reachable_markings
    rw [hpre, hpost, htids, hM0]

/-- C10: building `pre[tid]`/`post[tid]` keeps an arc only when it
resolves and its source (resp. target) is a place of the net; so an arc
whose endpoints are two transitions, or two places — both accepted by
validation — contributes to no preset or postset, and adding such an
arc (fresh id, not yet referenced) leaves the reachable-marking
computation unchanged in either mode. -/
theorem preset_postset_skip_nonplace_arcs (net : PetriNet) (t : Transition)
    (tid : String) (h : lookupA net.transitions tid = some t) :
    (∀ p, p ∈ preT net tid ↔
      ∃ aid ∈ t.incoming, ∃ arc, lookupA net.arcs aid = some arc ∧
        arc.source = p ∧ isKey net.places p = true)
    ∧ (∀ p, p ∈ postT net tid ↔
      ∃ aid ∈ t.outgoing, ∃ arc, lookupA net.arcs aid = some arc ∧
        arc.target = p ∧ isKey net.places p = true)
    ∧ (∀ (aid : String) (arc : Arc) (dfs : Bool),
        isKey net.arcs aid = false →
        (∀ q ∈ net.transitions, aid ∉ q.2.incoming ∧ aid ∉ q.2.outgoing) →
        ((isKey net.places arc.source = false ∧ isKey net.places arc.target = false) ∨
         (isKey net.places arc.source = true ∧ isKey net.places arc.target = true)) →
        compute_reachable_markings (extendWithArc net aid arc) dfs =
          compute_reachable_markings net dfs) := by
  refine ⟨?_, ?_, fun aid arc dfs h1 h2 h3 => computeRM_extend net aid arc dfs h1 h2 h3⟩
  · intro p
    unfold preT
    rw [h]
    unfold presetOf
    rw [List.mem_toFinset, List.mem_filterMap]
    constructor
    · rintro ⟨aid, ha, hsome⟩
      cases hl : lookupA net.arcs aid with
      | none =>
        simp only [hl] at hsome
        cases hsome
      | some arc =>
        simp only [hl] at hsome
        by_cases hk : isKey net.places arc.source
        · rw [if_pos hk] at hsome
          have hsp : arc.source = p := Option.some_injective _ hsome
          exact ⟨aid, ha, arc, hl, hsp, by rw [← hsp]; exact hk⟩
        · rw [if_neg hk] at hsome
          cases hsome
    · rintro ⟨aid, ha, arc, hl, hsp, hk⟩
      refine ⟨aid, ha, ?_⟩
      simp only [hl]
      rw [← hsp] at hk
      rw [if_pos hk, hsp]
  · intro p
    unfold postT
    rw [h]
    unfold postsetOf
    rw [List.mem_toFinset, List.mem_filterMap]
    constructor
    · rintro ⟨aid, ha, hsome⟩
      cases hl : lookupA net.arcs aid with
      | none =>
        simp only [hl] at hsome
        cases hsome
      | some arc =>
        simp only [hl] at hsome
        by_cases hk : isKey net.places arc.target
        · rw [if_pos hk] at hsome
          have hsp : arc.target = p := Option.some_injective _ hsome
          exact ⟨aid, ha, arc, hl, hsp, by rw [← hsp]; exact hk⟩
        · rw [if_neg hk] at hsome
          cases hsome
    · rintro ⟨aid, ha, arc, hl, hsp, hk⟩
      refine ⟨aid, ha, ?_⟩
      simp only [hl]
      rw [← hsp] at hk
      rw [if_pos hk, hsp]

theorem preset_postset_skip_nonplace_arcs_witness :
    ("p1" ∈ preT netD "t1")
    ∧ compute_reachable_markings
        (extendWithArc netD "a9" { id := "a9", source := "t1", target := "t2" }) false =
      compute_reachable_markings netD false := by
  have h := preset_postset_skip_nonplace_arcs netD
    { id := "t1", incoming := ["a1"], outgoing := ["a2"] } "t1" (by decide)
  constructor
  · exact (h.1 "p1").mpr
      ⟨"a1", by decide, { id := "a1", source := "p1", target := "t1" },
        by decide, rfl, by decide⟩
  · exact h.2.2 "a9" { id := "a9", source := "t1", target := "t2" } false
      (by decide) (by decide) (Or.inl ⟨by decide, by decide⟩)
